import Mathlib

/-!
Verification of the two-pass connected-component labeling algorithm in
`ConnectedComponent.cpp` (class `ConnectedComponent`).

The C++ code is shallowly embedded as follows:
* a `cv::Mat` image is a `MatImage`: dimensions, type metadata (`channels`,
  `depth`), and a pixel function `Pos → ℕ` (8-bit values, `0` = background);
* the label matrix `result` (the clone of the input converted to `CV_32SC1`,
  mutated in place) is a function `Pos → ℕ`, updated functionally;
* the `linked` and `labels_set` vectors (zero-initialised, of size
  `maxComponent`, indexed only by provisional labels, which the capacity check
  keeps below `maxComponent`) are functions `ℕ → ℕ` that are zero outside the
  touched indices;
* the `while (parent[a] > 0)` chases in `disjointUnion` / `disjointFind` are
  given explicit fuel `maxComponent`; the invariant proved about reachable
  states (parent pointers strictly increase and stay below `nextLabel`)
  shows this fuel always suffices, which is exactly the termination claim of
  the specification;
* `throw std::runtime_error` / the failed `CV_Assert` become the `Except`
  error results `labelCapacityExceeded` / `preconditionViolation`;
* `double`/`float` arithmetic in the property computations is modeled by
  exact rational arithmetic, with `sqrt` passed as an uninterpreted function
  `ℚ → ℚ` (both `sqrt` and `sqrtf` of the source are modeled by it);
* `cv::moments`, an external collaborator whose code is not part of the
  repository, is modeled from the spec (see `momentsOf`).
-/

/-- Pixel position `(row, column)`, i.e. `(y, x)`. -/
abbrev Pos : Type := ℕ × ℕ

/-- Functional update of a label matrix at one position
(the in-place write `curr_ptr[x] = v`). -/
def updF (f : Pos → ℕ) (p : Pos) (v : ℕ) : Pos → ℕ :=
  fun q => if q = p then v else f q

/-- Functional update of an `int` vector at one index
(the in-place write `parent[i] = v` / `labels[i] = v`). -/
def updN (f : ℕ → ℕ) (i v : ℕ) : ℕ → ℕ :=
  fun j => if j = i then v else f j

/-- The raster enumeration of all positions of a `rows × cols` matrix:
row-major, top-to-bottom, left-to-right — the traversal order of both passes
(`for y ... for x ...`). -/
def rpos (rows cols : ℕ) : List Pos :=
  (List.range rows).flatMap (fun y => (List.range cols).map (fun x => (y, x)))

/-- Raster (scan) order on positions: strictly earlier row, or same row and
strictly earlier column. -/
def rasterLt (p q : Pos) : Prop :=
  p.1 < q.1 ∨ (p.1 = q.1 ∧ p.2 < q.2)

instance : DecidableRel rasterLt := fun _ _ => by
  unfold rasterLt; infer_instance

/-- Coordinates differing by at most one. -/
def near (a b : ℕ) : Prop := a = b ∨ a = b + 1 ∨ b = a + 1

instance : DecidableRel near := fun _ _ => by
  unfold near; infer_instance

/-- 8-adjacency of two distinct pixels: rows and columns each differ by at
most one (horizontal, vertical or diagonal neighbors). -/
def adj (p q : Pos) : Prop :=
  p ≠ q ∧ near p.1 q.1 ∧ near p.2 q.2

instance : DecidableRel adj := fun _ _ => by
  unfold adj; infer_instance

/-- Input image: a `cv::Mat`. `channels`/`depth` model the type metadata
tested by `CV_Assert(image.type() == CV_8UC1)` (`CV_8UC1` = one channel of
8-bit depth); `pixel` gives the stored values (`0` = background). -/
structure MatImage where
  channels : ℕ
  depth : ℕ
  rows : ℕ
  cols : ℕ
  pixel : Pos → ℕ

/-- In-bounds positions of the image. -/
def inBounds (img : MatImage) (p : Pos) : Prop :=
  p.1 < img.rows ∧ p.2 < img.cols

instance (img : MatImage) (p : Pos) : Decidable (inBounds img p) := by
  unfold inBounds; infer_instance

/-- Foreground pixels: in bounds and with a nonzero value. -/
def FgP (img : MatImage) (p : Pos) : Prop :=
  inBounds img p ∧ img.pixel p ≠ 0

instance (img : MatImage) (p : Pos) : Decidable (FgP img p) := by
  unfold FgP; infer_instance

/-- One step of connectivity inside the pixel set `S`: both endpoints belong
to `S` and are 8-adjacent. -/
def ConnStep (S : Pos → Prop) (p q : Pos) : Prop :=
  S p ∧ S q ∧ adj p q

/-- Connectivity inside the pixel set `S`: the reflexive-transitive closure
of `ConnStep S`. Two foreground pixels lie in the same maximal 8-connected
component of `S` exactly when they are related by `ConnectedIn S`. -/
def ConnectedIn (S : Pos → Prop) (p q : Pos) : Prop :=
  Relation.ReflTransGen (ConnStep S) p q

/-- The equivalence used as ground truth for claims about components: the
foreground mask of the image with 8-connectivity. -/
def Conn (img : MatImage) (p q : Pos) : Prop :=
  ConnectedIn (FgP img) p q

/-- Error outcomes of `ConnectedComponent::apply`: the failed
`CV_Assert(image.type() == CV_8UC1)` and the `std::runtime_error` thrown when
the provisional label count reaches `maxComponent`. -/
inductive CCError where
  | preconditionViolation
  | labelCapacityExceeded
deriving Repr, DecidableEq

/- ------------------------------------------------------------------ -/
/- Disjoint-set helper (`disjointUnion` / `disjointFind`).             -/
/- ------------------------------------------------------------------ -/

/-- The root chase `while (parent[a] > 0) a = parent[a];`, with explicit
fuel. Call sites use fuel `maxComponent`; the invariant on reachable parent
arrays (pointers strictly increase, staying below `nextLabel ≤ maxComponent`)
makes this fuel sufficient, so the embedded chase computes exactly the limit
of the C++ loop. -/
def chase (parent : ℕ → ℕ) : ℕ → ℕ → ℕ
  | 0, a => a
  | f + 1, a => if 0 < parent a then chase parent f (parent a) else a

/-- `ConnectedComponent::disjointUnion`: chase both arguments to their
roots; if the roots differ, `if (a < b) parent[a] = b; else parent[b] = a;`.
Note the direction: the smaller root is redirected to the larger one. -/
def disjointUnion (mc a b : ℕ) (parent : ℕ → ℕ) : ℕ → ℕ :=
  let ra := chase parent mc a
  let rb := chase parent mc b
  if ra ≠ rb then
    if ra < rb then updN parent ra rb
    else updN parent rb ra
  else parent

/-- `ConnectedComponent::disjointFind`: chase `a` to its root; if the root
has no compact label yet (`labels[a] == 0`), assign it `nextLabel++`.
Returns the compact label together with the updated `labels` array and
counter. -/
def disjointFind (mc a : ℕ) (parent labels : ℕ → ℕ) (next : ℕ) :
    ℕ × (ℕ → ℕ) × ℕ :=
  let r := chase parent mc a
  if labels r = 0 then (next, updN labels r next, next + 1)
  else (labels r, labels, next)

/- ------------------------------------------------------------------ -/
/- Neighbor gathering (`getNeighbors`).                                -/
/- ------------------------------------------------------------------ -/

/-- The matrix cells read by `getNeighbors` at pixel `(y, x)`, in program
order: `prev_ptr[x]`, `prev_ptr[x-1]`, `prev_ptr[x+1]` (only when
`prev_ptr != NULL`, i.e. `y > 0`, and with the column guards `x > 0`,
`x < cols - 1`), then `curr_ptr[x-1]` (when `x > 0`). -/
def backPositions (p : Pos) (cols : ℕ) : List Pos :=
  (if 0 < p.1 then
    [(p.1 - 1, p.2)] ++
    (if 0 < p.2 then [(p.1 - 1, p.2 - 1)] else []) ++
    (if p.2 < cols - 1 then [(p.1 - 1, p.2 + 1)] else [])
  else []) ++
  (if 0 < p.2 then [(p.1, p.2 - 1)] else [])

/-- Insertion of a value into a sorted list of naturals. -/
def sortInsert (a : ℕ) : List ℕ → List ℕ
  | [] => [a]
  | b :: t => if a ≤ b then a :: b :: t else b :: sortInsert a t

/-- Insertion sort. `std::sort` is modeled by it: over naturals the sorted
rearrangement of a list is unique, so every comparison sort computes this
same function (structural recursion is used so that the kernel can evaluate
it on concrete inputs). -/
def sortAsc : List ℕ → List ℕ
  | [] => []
  | a :: t => sortInsert a (sortAsc t)

/-- `std::sort` followed by `std::unique_copy`: the distinct values of a
list of naturals, in increasing order. On a sorted list, removing adjacent
duplicates and removing all duplicates coincide. -/
def sortUnique (l : List ℕ) : List ℕ :=
  (sortAsc l).dedup

/-- `ConnectedComponent::getNeighbors`: the nonzero labels among the four
already-visited neighbor cells, reduced to sorted unique values. -/
def getNeighbors (L : Pos → ℕ) (p : Pos) (cols : ℕ) : List ℕ :=
  sortUnique (((backPositions p cols).map L).filter (fun v => v != 0))

/-- The value of `*std::min_element(...)` on a vector of naturals
(`0` for the empty vector, which the caller never uses). -/
def minElem : List ℕ → ℕ
  | [] => 0
  | a :: t => t.foldl Nat.min a

/- ------------------------------------------------------------------ -/
/- Pass 1: provisional labeling.                                       -/
/- ------------------------------------------------------------------ -/

/-- State of the first pass: the label matrix being rewritten in place
(initially the cloned input), the `linked` parent vector, and the
`nextLabel` counter. -/
structure Pass1State where
  labels : Pos → ℕ
  linked : ℕ → ℕ
  nextLabel : ℕ

/-- The first pass over a list of positions (called on the raster
enumeration). For each foreground cell: gather the visited neighbor labels;
if none, assign a fresh provisional label and fail when the incremented
`nextLabel` reaches `maxComponent`; otherwise assign the minimum neighbor
label and union it with every neighbor label. -/
def pass1Go (mc cols : ℕ) : List Pos → Pass1State → Except CCError Pass1State
  | [], st => .ok st
  | p :: rest, st =>
    if st.labels p ≠ 0 then
      let nbs := getNeighbors st.labels p cols
      if nbs.isEmpty then
        let st1 : Pass1State :=
          ⟨updF st.labels p st.nextLabel, st.linked, st.nextLabel + 1⟩
        if mc ≤ st1.nextLabel then .error .labelCapacityExceeded
        else pass1Go mc cols rest st1
      else
        let m := minElem nbs
        pass1Go mc cols rest
          ⟨updF st.labels p m,
           nbs.foldl (fun pa t => disjointUnion mc m t pa) st.linked,
           st.nextLabel⟩
    else pass1Go mc cols rest st

/- ------------------------------------------------------------------ -/
/- Pass 2: resolution and compaction.                                  -/
/- ------------------------------------------------------------------ -/

/-- State of the second pass: the label matrix (in-place rewrite from
provisional to final labels), the `labels_set` vector, the reset `nextLabel`
counter, and the `temp` list of final labels of foreground pixels in raster
order. -/
structure Pass2State where
  labels : Pos → ℕ
  labelsSet : ℕ → ℕ
  nextLabel : ℕ
  temp : List ℕ

/-- The second pass over a list of positions: every nonzero cell is replaced
by `disjointFind` of its provisional label and recorded in `temp`. -/
def pass2Go (mc : ℕ) (parent : ℕ → ℕ) : List Pos → Pass2State → Pass2State
  | [], st => st
  | p :: rest, st =>
    if st.labels p ≠ 0 then
      let fr := disjointFind mc (st.labels p) parent st.labelsSet st.nextLabel
      pass2Go mc parent rest
        ⟨updF st.labels p fr.1, fr.2.1, fr.2.2, st.temp ++ [fr.1]⟩
    else pass2Go mc parent rest st

/- ------------------------------------------------------------------ -/
/- Property extraction.                                                -/
/- ------------------------------------------------------------------ -/

/-- Image moments of a mask: zeroth and first-order raw moments and
second-order normalized central moments, as in `cv::Moments`. -/
structure MomentsQ where
  m00 : ℚ
  m10 : ℚ
  m01 : ℚ
  nu20 : ℚ
  nu11 : ℚ
  nu02 : ℚ
deriving DecidableEq

/-- Modelled from the spec: the external moment-computation collaborator
(`cv::moments`, not part of this repository). Per the spec it is "given a
boolean mask" and "returns zeroth raw moment, first-order raw moments (x,y),
and second-order normalized central moments (nu20, nu11, nu02)", with the
standard definitions: `m00` the mask area, `m10 = Σ x`, `m01 = Σ y`,
`mu_pq = Σ (x - x̄)^p (y - ȳ)^q` and `nu_pq = mu_pq / m00^2` for
`p + q = 2`. -/
def momentsOf (rows cols : ℕ) (mask : Pos → Bool) : MomentsQ :=
  let pts := (rpos rows cols).filter mask
  let m00 : ℚ := pts.length
  let m10 : ℚ := (pts.map (fun p => (p.2 : ℚ))).sum
  let m01 : ℚ := (pts.map (fun p => (p.1 : ℚ))).sum
  let xb := m10 / m00
  let yb := m01 / m00
  let mu20 := (pts.map (fun p => ((p.2 : ℚ) - xb) * ((p.2 : ℚ) - xb))).sum
  let mu02 := (pts.map (fun p => ((p.1 : ℚ) - yb) * ((p.1 : ℚ) - yb))).sum
  let mu11 := (pts.map (fun p => ((p.2 : ℚ) - xb) * ((p.1 : ℚ) - yb))).sum
  ⟨m00, m10, m01, mu20 / (m00 * m00), mu11 / (m00 * m00), mu02 / (m00 * m00)⟩

/-- The `left_comp` of `calculateBlobEccentricity`:
`(nu20 + nu02) / 2.0`. -/
def leftComp (mo : MomentsQ) : ℚ := (mo.nu20 + mo.nu02) / 2

/-- The radicand of `right_comp`:
`4 * nu11 * nu11 + (nu20 - nu02) * (nu20 - nu02)`. -/
def radicand (mo : MomentsQ) : ℚ :=
  4 * mo.nu11 * mo.nu11 + (mo.nu20 - mo.nu02) * (mo.nu20 - mo.nu02)

/-- The larger covariance eigenvalue `eig_val_1 = left_comp + right_comp`,
with `sqrt` uninterpreted. This is the divisor of `eig_val_2 / eig_val_1` in
`calculateBlobEccentricity`. -/
def eigVal1 (sq : ℚ → ℚ) (mo : MomentsQ) : ℚ :=
  leftComp mo + sq (radicand mo) / 2

/-- The smaller covariance eigenvalue `eig_val_2 = left_comp - right_comp`. -/
def eigVal2 (sq : ℚ → ℚ) (mo : MomentsQ) : ℚ :=
  leftComp mo - sq (radicand mo) / 2

/-- `ConnectedComponent::calculateBlobEccentricity`:
`sqrtf(1.0 - eig_val_2 / eig_val_1)`. The division is a straight-line
operation: no branch guards the `eig_val_1 == 0` case. -/
def calculateBlobEccentricity (sq : ℚ → ℚ) (mo : MomentsQ) : ℚ :=
  sq (1 - eigVal2 sq mo / eigVal1 sq mo)

/-- `ConnectedComponent::calculateBlobCentroid`:
`Point2f(m10 / m00, m01 / m00)`. -/
def calculateBlobCentroid (mo : MomentsQ) : ℚ × ℚ :=
  (mo.m10 / mo.m00, mo.m01 / mo.m00)

/-- One entry of the `properties` vector (`ComponentProperty` of the
header): label id, pixel count, eccentricity and centroid. -/
structure ComponentProperty where
  labelID : ℕ
  area : ℕ
  eccentricity : ℚ
  centroid : ℚ × ℚ
deriving DecidableEq

instance : Inhabited ComponentProperty := ⟨⟨0, 0, 0, (0, 0)⟩⟩

/-- `std::vector::resize`: keep the first `n` entries, append
default-constructed entries if the vector grows. -/
def resizeProps (l : List ComponentProperty) (n : ℕ) : List ComponentProperty :=
  l.take n ++ List.replicate (n - l.length) default

/-- The property-filling loop after pass 2: `properties.resize(...)`, then
for each unique label, all four fields of `properties[i]` are assigned from
the blob mask `result == labels[i]` (so `area` is
`countNonZero(result == labels[i])`, counted over the whole matrix). -/
def buildProperties (sq : ℚ → ℚ) (rows cols : ℕ) (F : Pos → ℕ)
    (prev : List ComponentProperty) (labs : List ℕ) : List ComponentProperty :=
  (List.range labs.length).map (fun i =>
    let old := (resizeProps prev labs.length).getD i default
    let l := labs.getD i 0
    let mo := momentsOf rows cols (fun p => F p == l)
    { old with
      labelID := l,
      area := (rpos rows cols).countP (fun p => F p == l),
      eccentricity := calculateBlobEccentricity sq mo,
      centroid := calculateBlobCentroid mo })

/- ------------------------------------------------------------------ -/
/- apply.                                                              -/
/- ------------------------------------------------------------------ -/

/-- The outputs of a successful `apply` call: the returned label matrix and
the `properties` member after the call. -/
structure ApplyResult where
  labelImage : Pos → ℕ
  properties : List ComponentProperty

/-- `ConnectedComponent::apply`. `mc` is the constructor argument
`maxComponent`; `prev` is the `properties` member before the call (resized
and overwritten by the call); `sq` models floating-point square root. On
error the C++ throws before `properties` is touched, so the member keeps its
prior value — here, an `.error` result carries no new state at all. -/
def applyCC (sq : ℚ → ℚ) (mc : ℕ) (prev : List ComponentProperty)
    (img : MatImage) : Except CCError ApplyResult :=
  if img.channels = 1 ∧ img.depth = 8 then
    match pass1Go mc img.cols (rpos img.rows img.cols) ⟨img.pixel, fun _ => 0, 1⟩ with
    | .error e => .error e
    | .ok st1 =>
      let st2 := pass2Go mc st1.linked (rpos img.rows img.cols)
        ⟨st1.labels, fun _ => 0, 1, []⟩
      let labs := sortUnique st2.temp
      .ok ⟨st2.labels, buildProperties sq img.rows img.cols st2.labels prev labs⟩
  else .error .preconditionViolation

/-- Pass 1 with the capacity check removed, used only to express "the number
of distinct provisional labels the image needs" independently of
`maxComponent` (the final `nextLabel` minus one is that number). -/
def pass1NoCap (mc cols : ℕ) : List Pos → Pass1State → Pass1State
  | [], st => st
  | p :: rest, st =>
    if st.labels p ≠ 0 then
      let nbs := getNeighbors st.labels p cols
      if nbs.isEmpty then
        pass1NoCap mc cols rest
          ⟨updF st.labels p st.nextLabel, st.linked, st.nextLabel + 1⟩
      else
        let m := minElem nbs
        pass1NoCap mc cols rest
          ⟨updF st.labels p m,
           nbs.foldl (fun pa t => disjointUnion mc m t pa) st.linked,
           st.nextLabel⟩
    else pass1NoCap mc cols rest st

/-- The number of distinct provisional labels pass 1 needs for an image
(computed with the capacity check disabled; the disjoint-set fuel is taken
large enough to be irrelevant to the label count, which never consults
`linked`). -/
def freshLabelsNeeded (img : MatImage) : ℕ :=
  (pass1NoCap (img.rows * img.cols + 2) img.cols (rpos img.rows img.cols)
    ⟨img.pixel, fun _ => 0, 1⟩).nextLabel - 1

/- ------------------------------------------------------------------ -/
/- Basic lemmas: updates, minimum element, sort-unique.                -/
/- ------------------------------------------------------------------ -/

theorem updF_self (f : Pos → ℕ) (p : Pos) (v : ℕ) : updF f p v p = v := by
  simp [updF]

theorem updF_ne (f : Pos → ℕ) (p q : Pos) (v : ℕ) (h : q ≠ p) :
    updF f p v q = f q := by
  simp [updF, h]

theorem updN_self (f : ℕ → ℕ) (i v : ℕ) : updN f i v i = v := by
  simp [updN]

theorem updN_ne (f : ℕ → ℕ) (i j v : ℕ) (h : j ≠ i) : updN f i v j = f j := by
  simp [updN, h]

theorem foldl_min_choice : ∀ (t : List ℕ) (a : ℕ),
    t.foldl Nat.min a = a ∨ t.foldl Nat.min a ∈ t := by
  intro t
  induction t with
  | nil => intro a; left; rfl
  | cons b t ih =>
    intro a
    rcases ih (Nat.min a b) with h | h
    · have hm : Nat.min a b = a ∨ Nat.min a b = b := by
        rcases Nat.le_total a b with h1 | h1
        · exact Or.inl (Nat.min_eq_left h1)
        · exact Or.inr (Nat.min_eq_right h1)
      rcases hm with hm | hm
      · left; simp only [List.foldl] at h ⊢; rw [h, hm]
      · right; simp only [List.foldl] at h ⊢; rw [h, hm]
        exact List.mem_cons_self _ _
    · right; exact List.mem_cons_of_mem _ h

theorem foldl_min_le_init : ∀ (t : List ℕ) (a : ℕ), t.foldl Nat.min a ≤ a := by
  intro t
  induction t with
  | nil => intro a; exact Nat.le_refl a
  | cons b t ih =>
    intro a
    calc (b :: t).foldl Nat.min a = t.foldl Nat.min (Nat.min a b) := rfl
    _ ≤ Nat.min a b := ih _
    _ ≤ a := Nat.min_le_left _ _

theorem foldl_min_le_mem : ∀ (t : List ℕ) (a x : ℕ), x ∈ t →
    t.foldl Nat.min a ≤ x := by
  intro t
  induction t with
  | nil => intro a x hx; cases hx
  | cons b t ih =>
    intro a x hx
    rcases List.mem_cons.mp hx with rfl | hx
    · calc (x :: t).foldl Nat.min a = t.foldl Nat.min (Nat.min a x) := rfl
      _ ≤ Nat.min a x := foldl_min_le_init _ _
      _ ≤ x := Nat.min_le_right _ _
    · exact ih _ _ hx

theorem minElem_mem (l : List ℕ) (h : l ≠ []) : minElem l ∈ l := by
  cases l with
  | nil => exact absurd rfl h
  | cons a t =>
    rcases foldl_min_choice t a with h' | h'
    · rw [minElem, h']; exact List.mem_cons_self _ _
    · exact List.mem_cons_of_mem _ h'

theorem minElem_le (l : List ℕ) (t : ℕ) (ht : t ∈ l) : minElem l ≤ t := by
  cases l with
  | nil => cases ht
  | cons a s =>
    rcases List.mem_cons.mp ht with rfl | ht
    · exact foldl_min_le_init _ _
    · exact foldl_min_le_mem _ _ _ ht

theorem mem_sortInsert (a t : ℕ) : ∀ l : List ℕ,
    (t ∈ sortInsert a l ↔ t = a ∨ t ∈ l) := by
  intro l
  induction l with
  | nil => simp [sortInsert]
  | cons b l ih =>
    unfold sortInsert
    split
    · simp
    · rw [List.mem_cons, ih, List.mem_cons]
      tauto

theorem mem_sortAsc (t : ℕ) : ∀ l : List ℕ, (t ∈ sortAsc l ↔ t ∈ l) := by
  intro l
  induction l with
  | nil => exact Iff.rfl
  | cons a l ih =>
    unfold sortAsc
    rw [mem_sortInsert, ih, List.mem_cons]

theorem mem_sortUnique (l : List ℕ) (t : ℕ) : t ∈ sortUnique l ↔ t ∈ l := by
  unfold sortUnique
  rw [List.mem_dedup]
  exact mem_sortAsc t l

theorem sortUnique_nodup (l : List ℕ) : (sortUnique l).Nodup :=
  List.nodup_dedup _

theorem mem_ite_singleton {α : Type} (c : Prop) [Decidable c] (a x : α) :
    (x ∈ if c then [a] else ([] : List α)) ↔ (c ∧ x = a) := by
  split
  · next hc => simp [hc]
  · next hc => simp [hc]

/- ------------------------------------------------------------------ -/
/- Raster-order lemmas.                                                -/
/- ------------------------------------------------------------------ -/

theorem mem_rpos (rows cols : ℕ) (p : Pos) :
    p ∈ rpos rows cols ↔ p.1 < rows ∧ p.2 < cols := by
  unfold rpos
  rw [List.mem_flatMap]
  constructor
  · rintro ⟨y, hy, hp⟩
    rcases List.mem_map.mp hp with ⟨x, hx, rfl⟩
    exact ⟨List.mem_range.mp hy, List.mem_range.mp hx⟩
  · rintro ⟨h1, h2⟩
    exact ⟨p.1, List.mem_range.mpr h1,
      List.mem_map.mpr ⟨p.2, List.mem_range.mpr h2, rfl⟩⟩

theorem rpos_pairwise (rows cols : ℕ) :
    (rpos rows cols).Pairwise rasterLt := by
  unfold rpos
  rw [List.pairwise_flatMap]
  constructor
  · intro y _
    rw [List.pairwise_map]
    exact (List.pairwise_lt_range cols).imp (fun h => Or.inr ⟨rfl, h⟩)
  · refine (List.pairwise_lt_range rows).imp ?_
    intro y1 y2 h x1 hx1 x2 hx2
    rcases List.mem_map.mp hx1 with ⟨a, _, rfl⟩
    rcases List.mem_map.mp hx2 with ⟨b, _, rfl⟩
    exact Or.inl h

theorem rasterLt_irrefl (p : Pos) : ¬ rasterLt p p := by
  unfold rasterLt; omega

theorem rasterLt_asymm (p q : Pos) : rasterLt p q → ¬ rasterLt q p := by
  unfold rasterLt; omega

theorem rpos_split {rows cols : ℕ} {done rest : List Pos} {p : Pos}
    (h : rpos rows cols = done ++ p :: rest) :
    (p.1 < rows ∧ p.2 < cols) ∧ p ∉ done ∧
    (∀ q : Pos, q ∈ done ↔ (q.1 < rows ∧ q.2 < cols ∧ rasterLt q p)) := by
  have hpair : (done ++ p :: rest).Pairwise rasterLt := h ▸ rpos_pairwise rows cols
  have hmem : ∀ q : Pos, q ∈ done ++ p :: rest ↔ q.1 < rows ∧ q.2 < cols := by
    intro q; rw [← h]; exact mem_rpos rows cols q
  obtain ⟨hd, hrest, hcross⟩ := List.pairwise_append.mp hpair
  have hp_bounds : p.1 < rows ∧ p.2 < cols :=
    (hmem p).mp (List.mem_append.mpr (Or.inr (List.mem_cons_self _ _)))
  have hdone_lt : ∀ q ∈ done, rasterLt q p :=
    fun q hq => hcross q hq p (List.mem_cons_self _ _)
  have hrest_gt : ∀ q ∈ rest, rasterLt p q :=
    fun q hq => (List.pairwise_cons.mp hrest).1 q hq
  refine ⟨hp_bounds, ?_, ?_⟩
  · intro hp
    exact rasterLt_irrefl p (hdone_lt p hp)
  · intro q
    constructor
    · intro hq
      have hb := (hmem q).mp (List.mem_append.mpr (Or.inl hq))
      exact ⟨hb.1, hb.2, hdone_lt q hq⟩
    · rintro ⟨h1, h2, hlt⟩
      rcases List.mem_append.mp ((hmem q).mpr ⟨h1, h2⟩) with hq | hq
      · exact hq
      · rcases List.mem_cons.mp hq with rfl | hq
        · exact absurd hlt (rasterLt_irrefl q)
        · exact absurd hlt (rasterLt_asymm p q (hrest_gt q hq))

theorem mem_backPositions {rows cols : ℕ} {p : Pos}
    (hp1 : p.1 < rows) (hp2 : p.2 < cols) (q : Pos) :
    q ∈ backPositions p cols ↔
      (q.1 < rows ∧ q.2 < cols ∧ rasterLt q p ∧ adj q p) := by
  obtain ⟨y, x⟩ := p
  obtain ⟨qy, qx⟩ := q
  simp only [backPositions, List.mem_append, mem_ite_singleton, List.mem_cons,
    List.not_mem_nil]
  rw [show ((qy, qx) ∈ if 0 < y then
      ([(y - 1, x)] ++ (if 0 < x then [(y - 1, x - 1)] else []) ++
        (if x < cols - 1 then [(y - 1, x + 1)] else [])) else []) ↔
      (0 < y ∧ ((qy, qx) = (y - 1, x) ∨ (0 < x ∧ (qy, qx) = (y - 1, x - 1)) ∨
        (x < cols - 1 ∧ (qy, qx) = (y - 1, x + 1)))) from ?_]
  · simp only [Prod.mk.injEq, rasterLt, adj, near, ne_eq]
    simp only [Prod.mk.injEq, not_and]
    constructor
    · rintro (⟨hy, h⟩ | ⟨hx, h1, h2⟩) <;> omega
    · rintro ⟨h1, h2, h3, h4, h5, h6⟩
      omega
  · split
    · next hc =>
      simp only [List.mem_append, List.mem_cons, List.not_mem_nil,
        mem_ite_singleton, or_false, hc, true_and, or_assoc]
    · next hc => simp [hc]

/- ------------------------------------------------------------------ -/
/- Union-find lemmas.                                                  -/
/- ------------------------------------------------------------------ -/

/-- Well-formedness of the `linked` parent array with respect to a bound `n`
(in use: `nextLabel`): every entry is either `0` (a root) or points to a
strictly larger label below `n`. -/
def Shape (n : ℕ) (parent : ℕ → ℕ) : Prop :=
  ∀ l, parent l = 0 ∨ (l < parent l ∧ parent l < n)

/-- The equivalence induced by the parent array: equal chase results with
fuel `mc`. -/
def Eqv (mc : ℕ) (parent : ℕ → ℕ) (a b : ℕ) : Prop :=
  chase parent mc a = chase parent mc b

instance (mc : ℕ) (parent : ℕ → ℕ) (a b : ℕ) : Decidable (Eqv mc parent a b) := by
  unfold Eqv; infer_instance

/-- Equivalence of `c` to some member of the list `T`. -/
def MergedTo (mc : ℕ) (parent : ℕ → ℕ) (T : List ℕ) (c : ℕ) : Prop :=
  ∃ t ∈ T, Eqv mc parent c t

theorem chase_of_root (parent : ℕ → ℕ) (a : ℕ) (h : parent a = 0) :
    ∀ f, chase parent f a = a := by
  intro f
  cases f with
  | zero => rfl
  | succ f => simp [chase, h]

theorem chase_root {n : ℕ} {parent : ℕ → ℕ} (hs : Shape n parent) :
    ∀ f a, n ≤ f + a + 1 → parent (chase parent f a) = 0 := by
  intro f
  induction f with
  | zero =>
    intro a hf
    rcases hs a with h | ⟨h1, h2⟩
    · exact h
    · omega
  | succ f ih =>
    intro a hf
    by_cases hp : 0 < parent a
    · rcases hs a with h | ⟨h1, h2⟩
      · omega
      · have : chase parent (f + 1) a = chase parent f (parent a) := by
          simp [chase, hp]
        rw [this]
        exact ih (parent a) (by omega)
    · have hz : parent a = 0 := by omega
      simp [chase, hz]

theorem chase_ge {n : ℕ} {parent : ℕ → ℕ} (hs : Shape n parent) :
    ∀ f a, a ≤ chase parent f a := by
  intro f
  induction f with
  | zero => intro a; exact Nat.le_refl a
  | succ f ih =>
    intro a
    by_cases hp : 0 < parent a
    · rcases hs a with h | ⟨h1, h2⟩
      · omega
      · have : chase parent (f + 1) a = chase parent f (parent a) := by
          simp [chase, hp]
        rw [this]
        exact Nat.le_trans (Nat.le_of_lt h1) (ih (parent a))
    · have hz : parent a = 0 := by omega
      simp [chase, hz]

theorem chase_lt {n : ℕ} {parent : ℕ → ℕ} (hs : Shape n parent) :
    ∀ f a, a < n → chase parent f a < n := by
  intro f
  induction f with
  | zero => intro a ha; exact ha
  | succ f ih =>
    intro a ha
    by_cases hp : 0 < parent a
    · rcases hs a with h | ⟨h1, h2⟩
      · omega
      · have : chase parent (f + 1) a = chase parent f (parent a) := by
          simp [chase, hp]
        rw [this]
        exact ih (parent a) h2
    · have hz : parent a = 0 := by omega
      simp [chase, hz, ha]

theorem chase_big {n : ℕ} {parent : ℕ → ℕ} (hs : Shape n parent) (a : ℕ)
    (ha : n ≤ a) : ∀ f, chase parent f a = a := by
  have hz : parent a = 0 := by
    rcases hs a with h | ⟨h1, h2⟩
    · exact h
    · omega
  exact chase_of_root parent a hz

theorem shape_mono {n m : ℕ} {parent : ℕ → ℕ} (hs : Shape n parent)
    (h : n ≤ m) : Shape m parent := by
  intro l
  rcases hs l with h' | ⟨h1, h2⟩
  · exact Or.inl h'
  · exact Or.inr ⟨h1, by omega⟩

theorem chase_update {n : ℕ} {parent : ℕ → ℕ} (hs : Shape n parent)
    {ra rb : ℕ} (hra : parent ra = 0) (hrb : parent rb = 0) (hne : ra ≠ rb)
    (hran : ra < n) (hrb0 : 0 < rb) :
    ∀ f c, n ≤ f + c →
      chase (updN parent ra rb) f c =
        if chase parent f c = ra then rb else chase parent f c := by
  intro f
  induction f with
  | zero =>
    intro c hf
    have hcra : c ≠ ra := by omega
    simp [chase, hcra]
  | succ f ih =>
    intro c hf
    by_cases hcra : c = ra
    · subst hcra
      have h1 : updN parent c rb c = rb := updN_self _ _ _
      have h2 : chase (updN parent c rb) (f + 1) c
          = chase (updN parent c rb) f rb := by
        simp [chase, h1, hrb0]
      have h3 : chase (updN parent c rb) f rb = rb := by
        apply chase_of_root
        rw [updN_ne _ _ _ _ (Ne.symm hne)]
        exact hrb
      rw [h2, h3, chase_of_root parent c hra]
      simp
    · have hupd : updN parent ra rb c = parent c := updN_ne _ _ _ _ hcra
      by_cases hp : 0 < parent c
      · have hstep : chase (updN parent ra rb) (f + 1) c
            = chase (updN parent ra rb) f (parent c) := by
          simp [chase, hupd, hp]
        have hstep' : chase parent (f + 1) c = chase parent f (parent c) := by
          simp [chase, hp]
        rw [hstep, hstep']
        apply ih
        rcases hs c with h | ⟨h1, h2⟩
        · omega
        · omega
      · have hz : parent c = 0 := by omega
        simp [chase, hupd, hz, hcra]

theorem union_shape {n mc : ℕ} {parent : ℕ → ℕ} (hs : Shape n parent)
    (hcap : n ≤ mc + 1) {a b : ℕ} (ha : a < n) (hb : b < n) :
    Shape n (disjointUnion mc a b parent) := by
  have hra : chase parent mc a < n := chase_lt hs mc a ha
  have hrb : chase parent mc b < n := chase_lt hs mc b hb
  unfold disjointUnion
  dsimp only
  split
  · next hne =>
    split
    · next hlt =>
      intro l
      by_cases hl : l = chase parent mc a
      · subst hl
        rw [updN_self]
        exact Or.inr ⟨hlt, hrb⟩
      · rw [updN_ne _ _ _ _ hl]
        exact hs l
    · next hge =>
      intro l
      by_cases hl : l = chase parent mc b
      · subst hl
        rw [updN_self]
        exact Or.inr ⟨by omega, hra⟩
      · rw [updN_ne _ _ _ _ hl]
        exact hs l
  · exact hs

theorem union_eqv {n mc : ℕ} {parent : ℕ → ℕ} (hs : Shape n parent)
    (hcap : n ≤ mc + 1) {a b : ℕ} (ha1 : 1 ≤ a) (ha : a < n) (hb1 : 1 ≤ b)
    (hb : b < n) :
    ∀ c d, 1 ≤ c → c < n → 1 ≤ d → d < n →
      (Eqv mc (disjointUnion mc a b parent) c d ↔
        (Eqv mc parent c d ∨ (Eqv mc parent c a ∧ Eqv mc parent d b) ∨
         (Eqv mc parent c b ∧ Eqv mc parent d a))) := by
  intro c d hc1 hc hd1 hd
  have hroota : parent (chase parent mc a) = 0 := chase_root hs mc a (by omega)
  have hrootb : parent (chase parent mc b) = 0 := chase_root hs mc b (by omega)
  have hlta : chase parent mc a < n := chase_lt hs mc a ha
  have hltb : chase parent mc b < n := chase_lt hs mc b hb
  have hgea : 1 ≤ chase parent mc a := le_trans ha1 (chase_ge hs mc a)
  have hgeb : 1 ≤ chase parent mc b := le_trans hb1 (chase_ge hs mc b)
  unfold disjointUnion
  dsimp only
  by_cases hne : chase parent mc a ≠ chase parent mc b
  · rw [if_pos hne]
    by_cases hlt : chase parent mc a < chase parent mc b
    · rw [if_pos hlt]
      have key : ∀ x, 1 ≤ x →
          chase (updN parent (chase parent mc a) (chase parent mc b)) mc x =
            if chase parent mc x = chase parent mc a then chase parent mc b
            else chase parent mc x := by
        intro x hx
        exact chase_update hs hroota hrootb hne hlta hgeb mc x (by omega)
      unfold Eqv
      rw [key c hc1, key d hd1]
      by_cases h1 : chase parent mc c = chase parent mc a <;>
        by_cases h2 : chase parent mc d = chase parent mc a
      · rw [if_pos h1, if_pos h2]; omega
      · rw [if_pos h1, if_neg h2]; omega
      · rw [if_neg h1, if_pos h2]; omega
      · rw [if_neg h1, if_neg h2]; omega
    · rw [if_neg hlt]
      have key : ∀ x, 1 ≤ x →
          chase (updN parent (chase parent mc b) (chase parent mc a)) mc x =
            if chase parent mc x = chase parent mc b then chase parent mc a
            else chase parent mc x := by
        intro x hx
        exact chase_update hs hrootb hroota (Ne.symm hne) hltb hgea mc x
          (by omega)
      unfold Eqv
      rw [key c hc1, key d hd1]
      by_cases h1 : chase parent mc c = chase parent mc b <;>
        by_cases h2 : chase parent mc d = chase parent mc b
      · rw [if_pos h1, if_pos h2]; omega
      · rw [if_pos h1, if_neg h2]; omega
      · rw [if_neg h1, if_pos h2]; omega
      · rw [if_neg h1, if_neg h2]; omega
  · rw [if_neg hne]
    have heq : chase parent mc a = chase parent mc b := by omega
    unfold Eqv
    omega

theorem foldl_union {n mc : ℕ} (hcap : n ≤ mc + 1) (m : ℕ) (hm1 : 1 ≤ m)
    (hmn : m < n) :
    ∀ (bs : List ℕ) (parent : ℕ → ℕ), Shape n parent →
      (∀ t ∈ bs, 1 ≤ t ∧ t < n) →
      Shape n (bs.foldl (fun pa t => disjointUnion mc m t pa) parent) ∧
      (∀ c d, 1 ≤ c → c < n → 1 ≤ d → d < n →
        (Eqv mc (bs.foldl (fun pa t => disjointUnion mc m t pa) parent) c d ↔
          (Eqv mc parent c d ∨
            (MergedTo mc parent (m :: bs) c ∧ MergedTo mc parent (m :: bs) d)))) := by
  intro bs
  induction bs with
  | nil =>
    intro parent hs _
    refine ⟨hs, ?_⟩
    intro c d _ _ _ _
    constructor
    · intro h; exact Or.inl h
    · intro h
      rcases h with h | ⟨⟨t1, ht1, he1⟩, ⟨t2, ht2, he2⟩⟩
      · exact h
      · simp only [List.mem_cons, List.not_mem_nil, or_false] at ht1 ht2
        subst ht1; subst ht2
        exact he1.trans he2.symm
  | cons b bs ih =>
    intro parent hs hball
    have hbm : 1 ≤ b ∧ b < n := hball b (List.mem_cons_self _ _)
    have hs1 : Shape n (disjointUnion mc m b parent) :=
      union_shape hs hcap hmn hbm.2
    have hbs : ∀ t ∈ bs, 1 ≤ t ∧ t < n :=
      fun t ht => hball t (List.mem_cons_of_mem _ ht)
    obtain ⟨ihShape, ihEqv⟩ := ih (disjointUnion mc m b parent) hs1 hbs
    have hfold : (b :: bs).foldl (fun pa t => disjointUnion mc m t pa) parent
        = bs.foldl (fun pa t => disjointUnion mc m t pa)
            (disjointUnion mc m b parent) := rfl
    refine ⟨by rw [hfold]; exact ihShape, ?_⟩
    intro c d hc1 hc hd1 hd
    rw [hfold, ihEqv c d hc1 hc hd1 hd]
    have htrans : ∀ x, 1 ≤ x → x < n →
        (MergedTo mc (disjointUnion mc m b parent) (m :: bs) x ↔
          MergedTo mc parent (m :: b :: bs) x) := by
      intro x hx1 hx
      constructor
      · rintro ⟨t, ht, he⟩
        have htb : 1 ≤ t ∧ t < n := by
          rcases List.mem_cons.mp ht with rfl | ht'
          · exact ⟨hm1, hmn⟩
          · exact hbs t ht'
        rcases (union_eqv hs hcap hm1 hmn hbm.1 hbm.2 x t hx1 hx htb.1
            htb.2).mp he with h | ⟨h1, _⟩ | ⟨h1, _⟩
        · refine ⟨t, ?_, h⟩
          rcases List.mem_cons.mp ht with rfl | ht'
          · exact List.mem_cons_self _ _
          · exact List.mem_cons_of_mem _ (List.mem_cons_of_mem _ ht')
        · exact ⟨m, List.mem_cons_self _ _, h1⟩
        · exact ⟨b, List.mem_cons_of_mem _ (List.mem_cons_self _ _), h1⟩
      · rintro ⟨t, ht, he⟩
        rcases List.mem_cons.mp ht with rfl | ht'
        · exact ⟨t, List.mem_cons_self _ _,
            (union_eqv hs hcap hm1 hmn hbm.1 hbm.2 x t hx1 hx hm1
              hmn).mpr (Or.inl he)⟩
        rcases List.mem_cons.mp ht' with rfl | ht''
        · refine ⟨m, List.mem_cons_self _ _, ?_⟩
          exact (union_eqv hs hcap hm1 hmn hbm.1 hbm.2 x m hx1 hx hm1
            hmn).mpr (Or.inr (Or.inr ⟨he, rfl⟩))
        · refine ⟨t, List.mem_cons_of_mem _ ht'', ?_⟩
          have htb := hbs t ht''
          exact (union_eqv hs hcap hm1 hmn hbm.1 hbm.2 x t hx1 hx htb.1
            htb.2).mpr (Or.inl he)
    rw [union_eqv hs hcap hm1 hmn hbm.1 hbm.2 c d hc1 hc hd1 hd,
      htrans c hc1 hc, htrans d hd1 hd]
    have i1c : Eqv mc parent c m → MergedTo mc parent (m :: b :: bs) c :=
      fun h => ⟨m, List.mem_cons_self _ _, h⟩
    have i1d : Eqv mc parent d m → MergedTo mc parent (m :: b :: bs) d :=
      fun h => ⟨m, List.mem_cons_self _ _, h⟩
    have i2c : Eqv mc parent c b → MergedTo mc parent (m :: b :: bs) c :=
      fun h => ⟨b, List.mem_cons_of_mem _ (List.mem_cons_self _ _), h⟩
    have i2d : Eqv mc parent d b → MergedTo mc parent (m :: b :: bs) d :=
      fun h => ⟨b, List.mem_cons_of_mem _ (List.mem_cons_self _ _), h⟩
    tauto

/- ------------------------------------------------------------------ -/
/- Connectivity lemmas.                                                -/
/- ------------------------------------------------------------------ -/

theorem adj_symm {p q : Pos} (h : adj p q) : adj q p := by
  obtain ⟨h1, h2, h3⟩ := h
  refine ⟨Ne.symm h1, ?_, ?_⟩ <;> unfold near at * <;> omega

theorem connStep_symm (S : Pos → Prop) {p q : Pos} (h : ConnStep S p q) :
    ConnStep S q p :=
  ⟨h.2.1, h.1, adj_symm h.2.2⟩

theorem connectedIn_symm (S : Pos → Prop) {p q : Pos}
    (h : ConnectedIn S p q) : ConnectedIn S q p :=
  Relation.ReflTransGen.symmetric (fun _ _ => connStep_symm S) h

theorem connectedIn_mono {S T : Pos → Prop} (h : ∀ x, S x → T x) {p q : Pos}
    (hc : ConnectedIn S p q) : ConnectedIn T p q :=
  Relation.ReflTransGen.mono
    (fun _ _ hs => ⟨h _ hs.1, h _ hs.2.1, hs.2.2⟩) hc

theorem connectedIn_congr {S T : Pos → Prop} (h : ∀ x, S x ↔ T x)
    {p q : Pos} : ConnectedIn S p q ↔ ConnectedIn T p q :=
  ⟨connectedIn_mono (fun x => (h x).mp), connectedIn_mono (fun x => (h x).mpr)⟩

theorem connectedIn_end {S : Pos → Prop} {p a : Pos} (hp : ¬ S p)
    (h : ConnectedIn S a p) : a = p := by
  rcases Relation.ReflTransGen.cases_tail h with h1 | ⟨c, _, hstep⟩
  · exact h1.symm
  · exact absurd hstep.2.1 hp

/-- Positions that the new pixel `p` links together: either `p` itself, or
positions connected (inside `S`) to some `S`-member adjacent to `p`. -/
def ReachP (S : Pos → Prop) (p z : Pos) : Prop :=
  z = p ∨ ∃ q, S q ∧ adj p q ∧ ConnectedIn S z q

theorem connectedIn_insert {S : Pos → Prop} {p : Pos} (hp : ¬ S p) :
    ∀ a b, ConnectedIn (fun q => S q ∨ q = p) a b ↔
      (ConnectedIn S a b ∨ (ReachP S p a ∧ ReachP S p b)) := by
  intro a b
  constructor
  · intro h
    induction h with
    | refl => exact Or.inl .refl
    | tail h1 step ih =>
      rename_i x c
      obtain ⟨hx, hc, hadj⟩ := step
      by_cases hxp : x = p
      · subst hxp
        have hcS : S c := by
          rcases hc with hc | hc
          · exact hc
          · exact absurd (hc ▸ rfl) hadj.1
        have hrc : ReachP S x c := Or.inr ⟨c, hcS, hadj, .refl⟩
        have hra : ReachP S x a := by
          rcases ih with hconn | ⟨hra, _⟩
          · exact Or.inl (connectedIn_end hp hconn)
          · exact hra
        exact Or.inr ⟨hra, hrc⟩
      · have hxS : S x := by
          rcases hx with hx | hx
          · exact hx
          · exact absurd hx hxp
        by_cases hcp : c = p
        · subst hcp
          have hrc : ReachP S c c := Or.inl rfl
          have hra : ReachP S c a := by
            rcases ih with hconn | ⟨hra, _⟩
            · exact Or.inr ⟨x, hxS, adj_symm hadj, hconn⟩
            · exact hra
          exact Or.inr ⟨hra, hrc⟩
        · have hcS : S c := by
            rcases hc with hc | hc
            · exact hc
            · exact absurd hc hcp
          rcases ih with hconn | ⟨hra, hrx⟩
          · exact Or.inl (hconn.tail ⟨hxS, hcS, hadj⟩)
          · refine Or.inr ⟨hra, ?_⟩
            rcases hrx with hxp' | ⟨q, hq, hpq, hxq⟩
            · exact absurd hxp' hxp
            · exact Or.inr ⟨q, hq, hpq,
                Relation.ReflTransGen.head
                  ⟨hcS, hxS, adj_symm hadj⟩ hxq⟩
  · have reach_to_p : ∀ z, ReachP S p z →
        ConnectedIn (fun q => S q ∨ q = p) z p := by
      rintro z (rfl | ⟨q, hq, hpq, hzq⟩)
      · exact .refl
      · exact Relation.ReflTransGen.tail
          (connectedIn_mono (fun x hx => Or.inl hx) hzq)
          ⟨Or.inl hq, Or.inr rfl, adj_symm hpq⟩
    rintro (h | ⟨hra, hrb⟩)
    · exact connectedIn_mono (fun x hx => Or.inl hx) h
    · exact (reach_to_p a hra).trans
        (connectedIn_symm _ (reach_to_p b hrb))

/- ------------------------------------------------------------------ -/
/- Pass-1 invariant.                                                   -/
/- ------------------------------------------------------------------ -/

/-- Foreground pixels among an already-visited position list. -/
def FgIn (img : MatImage) (done : List Pos) (q : Pos) : Prop :=
  q ∈ done ∧ img.pixel q ≠ 0

/-- The invariant of the first pass after the positions in `done` have been
processed: background cells are zero and unvisited cells still hold their
pixel values; visited foreground cells hold provisional labels in
`[1, nextLabel)`; the parent array is well-shaped; and two visited
foreground cells have equivalent labels exactly when they are 8-connected
through visited foreground cells. -/
structure Inv1 (img : MatImage) (mc : ℕ) (done : List Pos)
    (st : Pass1State) : Prop where
  untouched : ∀ q, q ∉ done → st.labels q = img.pixel q
  bgZero : ∀ q, img.pixel q = 0 → st.labels q = 0
  fgLab : ∀ q, q ∈ done → img.pixel q ≠ 0 →
    1 ≤ st.labels q ∧ st.labels q < st.nextLabel
  nextOne : 1 ≤ st.nextLabel
  nextCap : st.nextLabel = 1 ∨ st.nextLabel < mc
  shape : Shape st.nextLabel st.linked
  main : ∀ a, a ∈ done → ∀ b, b ∈ done → img.pixel a ≠ 0 → img.pixel b ≠ 0 →
    (Eqv mc st.linked (st.labels a) (st.labels b) ↔
      ConnectedIn (FgIn img done) a b)

theorem inv1_cap {img : MatImage} {mc : ℕ} {done : List Pos}
    {st : Pass1State} (inv : Inv1 img mc done st) : st.nextLabel ≤ mc + 1 := by
  rcases inv.nextCap with h | h <;> omega

theorem inv1_init (img : MatImage) (mc : ℕ) :
    Inv1 img mc [] ⟨img.pixel, fun _ => 0, 1⟩ := by
  constructor
  · intro q _; rfl
  · intro q h; exact h
  · intro q hq; cases hq
  · exact Nat.le_refl 1
  · exact Or.inl rfl
  · intro l; exact Or.inl rfl
  · intro a ha; cases ha

theorem getNeighbors_spec {img : MatImage} {mc : ℕ} {done rest : List Pos}
    {p : Pos} {st : Pass1State}
    (hsplit : rpos img.rows img.cols = done ++ p :: rest)
    (inv : Inv1 img mc done st) :
    ∀ t, t ∈ getNeighbors st.labels p img.cols ↔
      ∃ q, q ∈ done ∧ img.pixel q ≠ 0 ∧ adj q p ∧ st.labels q = t := by
  obtain ⟨⟨hp1, hp2⟩, _, hdone⟩ := rpos_split hsplit
  intro t
  rw [getNeighbors, mem_sortUnique, List.mem_filter]
  constructor
  · rintro ⟨hmem, ht0⟩
    rcases List.mem_map.mp hmem with ⟨q, hq, rfl⟩
    have hq' := (mem_backPositions hp1 hp2 q).mp hq
    have hqdone : q ∈ done := (hdone q).mpr ⟨hq'.1, hq'.2.1, hq'.2.2.1⟩
    have ht0' : st.labels q ≠ 0 := by
      simpa only [bne_iff_ne, ne_eq] using ht0
    have hfg : img.pixel q ≠ 0 := fun h0 => ht0' (inv.bgZero q h0)
    exact ⟨q, hqdone, hfg, hq'.2.2.2, rfl⟩
  · rintro ⟨q, hqdone, hfg, hadj, rfl⟩
    have hq' := (hdone q).mp hqdone
    have hmm : q ∈ backPositions p img.cols :=
      (mem_backPositions hp1 hp2 q).mpr ⟨hq'.1, hq'.2.1, hq'.2.2, hadj⟩
    have hlab : 1 ≤ st.labels q := (inv.fgLab q hqdone hfg).1
    refine ⟨List.mem_map.mpr ⟨q, hmm, rfl⟩, ?_⟩
    simp only [bne_iff_ne, ne_eq]
    omega

theorem mem_append_singleton (q p : Pos) (done : List Pos) :
    q ∈ done ++ [p] ↔ q ∈ done ∨ q = p := by
  simp

theorem inv1_step_bg {img : MatImage} {mc : ℕ} {done rest : List Pos}
    {p : Pos} {st : Pass1State}
    (hsplit : rpos img.rows img.cols = done ++ p :: rest)
    (inv : Inv1 img mc done st) (hbg : img.pixel p = 0) :
    Inv1 img mc (done ++ [p]) st := by
  obtain ⟨_, hpnot, _⟩ := rpos_split hsplit
  have hS : ∀ x, FgIn img (done ++ [p]) x ↔ FgIn img done x := by
    intro x
    unfold FgIn
    rw [mem_append_singleton]
    constructor
    · rintro ⟨hx | rfl, hfg⟩
      · exact ⟨hx, hfg⟩
      · exact absurd hbg hfg
    · rintro ⟨hx, hfg⟩
      exact ⟨Or.inl hx, hfg⟩
  constructor
  · intro q hq
    exact inv.untouched q (fun h => hq (List.mem_append_left _ h))
  · exact inv.bgZero
  · intro q hq hfg
    rcases (mem_append_singleton q p done).mp hq with hq' | rfl
    · exact inv.fgLab q hq' hfg
    · exact absurd hbg hfg
  · exact inv.nextOne
  · exact inv.nextCap
  · exact inv.shape
  · intro a ha b hb hfa hfb
    have ha' : a ∈ done := by
      rcases (mem_append_singleton a p done).mp ha with h | rfl
      · exact h
      · exact absurd hbg hfa
    have hb' : b ∈ done := by
      rcases (mem_append_singleton b p done).mp hb with h | rfl
      · exact h
      · exact absurd hbg hfb
    rw [connectedIn_congr hS]
    exact inv.main a ha' b hb' hfa hfb

theorem inv1_step_fresh {img : MatImage} {mc : ℕ} {done rest : List Pos}
    {p : Pos} {st : Pass1State}
    (hsplit : rpos img.rows img.cols = done ++ p :: rest)
    (inv : Inv1 img mc done st) (hfg : img.pixel p ≠ 0)
    (hnb : getNeighbors st.labels p img.cols = [])
    (hcont : st.nextLabel + 1 < mc) :
    Inv1 img mc (done ++ [p])
      ⟨updF st.labels p st.nextLabel, st.linked, st.nextLabel + 1⟩ := by
  obtain ⟨_, hpnot, _⟩ := rpos_split hsplit
  have nspec := getNeighbors_spec hsplit inv
  have hno : ∀ q, q ∈ done → img.pixel q ≠ 0 → ¬ adj q p := by
    intro q hq hqfg hadj
    have hmem : st.labels q ∈ getNeighbors st.labels p img.cols :=
      (nspec (st.labels q)).mpr ⟨q, hq, hqfg, hadj, rfl⟩
    rw [hnb] at hmem
    cases hmem
  have hSU : ∀ x, FgIn img (done ++ [p]) x ↔ (FgIn img done x ∨ x = p) := by
    intro x
    unfold FgIn
    rw [mem_append_singleton]
    constructor
    · rintro ⟨hx | rfl, hfgx⟩
      · exact Or.inl ⟨hx, hfgx⟩
      · exact Or.inr rfl
    · rintro (⟨hx, hfgx⟩ | rfl)
      · exact ⟨Or.inl hx, hfgx⟩
      · exact ⟨Or.inr rfl, hfg⟩
  have hSp : ¬ FgIn img done p := fun h => hpnot h.1
  have hreach : ∀ z, ReachP (FgIn img done) p z ↔ z = p := by
    intro z
    constructor
    · rintro (rfl | ⟨q, hq, hpq, _⟩)
      · rfl
      · exact absurd (adj_symm hpq) (hno q hq.1 hq.2)
    · intro h; exact Or.inl h
  have hpd : ∀ q : Pos, q ∈ done → q ≠ p := fun q hq he => hpnot (he ▸ hq)
  constructor
  · intro q hq
    dsimp only
    have hq1 : q ∉ done := fun h => hq (List.mem_append_left _ h)
    have hq2 : q ≠ p := fun h => hq (by
      rw [h]; exact List.mem_append_right _ (List.mem_cons_self _ _))
    rw [updF_ne _ _ _ _ hq2]
    exact inv.untouched q hq1
  · intro q hq0
    dsimp only
    have hq2 : q ≠ p := fun h => hfg (h ▸ hq0)
    rw [updF_ne _ _ _ _ hq2]
    exact inv.bgZero q hq0
  · intro q hq hfgq
    dsimp only
    rcases (mem_append_singleton q p done).mp hq with hq' | rfl
    · rw [updF_ne _ _ _ _ (hpd q hq')]
      have hb := inv.fgLab q hq' hfgq
      exact ⟨hb.1, by omega⟩
    · rw [updF_self]
      exact ⟨inv.nextOne, by omega⟩
  · dsimp only
    have := inv.nextOne; omega
  · dsimp only
    exact Or.inr hcont
  · dsimp only
    exact shape_mono inv.shape (Nat.le_succ _)
  · intro a ha b hb hfa hfb
    dsimp only
    have hconn : ConnectedIn (FgIn img (done ++ [p])) a b ↔
        (ConnectedIn (FgIn img done) a b ∨ (a = p ∧ b = p)) := by
      rw [connectedIn_congr hSU, connectedIn_insert hSp a b, hreach a,
        hreach b]
    rw [hconn]
    rcases (mem_append_singleton a p done).mp ha with ha' | hae
    · rcases (mem_append_singleton b p done).mp hb with hb' | hbe
      · rw [updF_ne _ _ _ _ (hpd a ha'), updF_ne _ _ _ _ (hpd b hb')]
        constructor
        · intro h
          exact Or.inl ((inv.main a ha' b hb' hfa hfb).mp h)
        · rintro (h | ⟨hap, -⟩)
          · exact (inv.main a ha' b hb' hfa hfb).mpr h
          · exact absurd (hap ▸ ha') hpnot
      · rw [hbe]
        rw [updF_ne _ _ _ _ (hpd a ha'), updF_self]
        have hfalse1 : ¬ Eqv mc st.linked (st.labels a) st.nextLabel := by
          unfold Eqv
          have h1 : chase st.linked mc (st.labels a) < st.nextLabel :=
            chase_lt inv.shape mc _ (inv.fgLab a ha' hfa).2
          have h2 : chase st.linked mc st.nextLabel = st.nextLabel :=
            chase_big inv.shape _ (Nat.le_refl _) mc
          omega
        have hfalse2 : ¬ ConnectedIn (FgIn img done) a p :=
          fun h => (hpd a ha') (connectedIn_end hSp h)
        constructor
        · intro h; exact absurd h hfalse1
        · rintro (h | ⟨hap, -⟩)
          · exact absurd h hfalse2
          · exact absurd (hap ▸ ha') hpnot
    · rw [hae]
      rcases (mem_append_singleton b p done).mp hb with hb' | hbe
      · rw [updF_self, updF_ne _ _ _ _ (hpd b hb')]
        have hfalse1 : ¬ Eqv mc st.linked st.nextLabel (st.labels b) := by
          unfold Eqv
          have h1 : chase st.linked mc (st.labels b) < st.nextLabel :=
            chase_lt inv.shape mc _ (inv.fgLab b hb' hfb).2
          have h2 : chase st.linked mc st.nextLabel = st.nextLabel :=
            chase_big inv.shape _ (Nat.le_refl _) mc
          omega
        have hfalse2 : ¬ ConnectedIn (FgIn img done) p b := by
          intro h
          exact (hpd b hb') (connectedIn_end hSp (connectedIn_symm _ h))
        constructor
        · intro h; exact absurd h hfalse1
        · rintro (h | ⟨-, hbp⟩)
          · exact absurd h hfalse2
          · exact absurd (hbp ▸ hb') hpnot
      · rw [hbe, updF_self]
        constructor
        · intro _; exact Or.inr ⟨rfl, rfl⟩
        · intro _; rfl

theorem eqv_refl (mc : ℕ) (parent : ℕ → ℕ) (a : ℕ) : Eqv mc parent a a := rfl

theorem eqv_symm {mc : ℕ} {parent : ℕ → ℕ} {a b : ℕ} (h : Eqv mc parent a b) :
    Eqv mc parent b a := by
  unfold Eqv at *
  exact h.symm

theorem inv1_step_merge {img : MatImage} {mc : ℕ} {done rest : List Pos}
    {p : Pos} {st : Pass1State}
    (hsplit : rpos img.rows img.cols = done ++ p :: rest)
    (inv : Inv1 img mc done st) (hfg : img.pixel p ≠ 0)
    (hnb : getNeighbors st.labels p img.cols ≠ []) :
    Inv1 img mc (done ++ [p])
      ⟨updF st.labels p (minElem (getNeighbors st.labels p img.cols)),
       (getNeighbors st.labels p img.cols).foldl
         (fun pa t => disjointUnion mc
           (minElem (getNeighbors st.labels p img.cols)) t pa) st.linked,
       st.nextLabel⟩ := by
  obtain ⟨_, hpnot, _⟩ := rpos_split hsplit
  have nspec := getNeighbors_spec hsplit inv
  set nbs := getNeighbors st.labels p img.cols with hnbs
  set m := minElem nbs with hm
  have hm_mem : m ∈ nbs := minElem_mem nbs hnb
  obtain ⟨q0, hq0d, hq0fg, hq0adj, hq0lab⟩ := (nspec m).mp hm_mem
  have hm1 : 1 ≤ m := hq0lab ▸ (inv.fgLab q0 hq0d hq0fg).1
  have hmn : m < st.nextLabel := hq0lab ▸ (inv.fgLab q0 hq0d hq0fg).2
  have hcap : st.nextLabel ≤ mc + 1 := inv1_cap inv
  have hbounds : ∀ t ∈ nbs, 1 ≤ t ∧ t < st.nextLabel := by
    intro t ht
    obtain ⟨q, hqd, hqfg, _, hqlab⟩ := (nspec t).mp ht
    exact hqlab ▸ inv.fgLab q hqd hqfg
  obtain ⟨hshape', heqv⟩ :=
    foldl_union hcap m hm1 hmn nbs st.linked inv.shape hbounds
  have hpd : ∀ q : Pos, q ∈ done → q ≠ p := fun q hq he => hpnot (he ▸ hq)
  have hSU : ∀ x, FgIn img (done ++ [p]) x ↔ (FgIn img done x ∨ x = p) := by
    intro x
    unfold FgIn
    rw [mem_append_singleton]
    constructor
    · rintro ⟨hx | rfl, hfgx⟩
      · exact Or.inl ⟨hx, hfgx⟩
      · exact Or.inr rfl
    · rintro (⟨hx, hfgx⟩ | rfl)
      · exact ⟨Or.inl hx, hfgx⟩
      · exact ⟨Or.inr rfl, hfg⟩
  have hSp : ¬ FgIn img done p := fun h => hpnot h.1
  have mhelp : ∀ x, MergedTo mc st.linked (m :: nbs) x ↔
      ∃ t ∈ nbs, Eqv mc st.linked x t := by
    intro x
    constructor
    · rintro ⟨t, ht, he⟩
      rcases List.mem_cons.mp ht with rfl | ht'
      · exact ⟨m, hm_mem, he⟩
      · exact ⟨t, ht', he⟩
    · rintro ⟨t, ht, he⟩
      exact ⟨t, List.mem_cons_of_mem _ ht, he⟩
  have claimA : ∀ a, a ∈ done → img.pixel a ≠ 0 →
      (MergedTo mc st.linked (m :: nbs) (st.labels a) ↔
        ReachP (FgIn img done) p a) := by
    intro a ha hfa
    rw [mhelp]
    constructor
    · rintro ⟨t, ht, he⟩
      obtain ⟨q, hqd, hqfg, hqadj, hqlab⟩ := (nspec t).mp ht
      have hconn : ConnectedIn (FgIn img done) a q :=
        (inv.main a ha q hqd hfa hqfg).mp (hqlab ▸ he)
      exact Or.inr ⟨q, ⟨hqd, hqfg⟩, adj_symm hqadj, hconn⟩
    · rintro (hap | ⟨q, hSq, hpq, hconn⟩)
      · exact absurd (hap ▸ ha) hpnot
      · have hqadj : adj q p := adj_symm hpq
        have ht : st.labels q ∈ nbs :=
          (nspec _).mpr ⟨q, hSq.1, hSq.2, hqadj, rfl⟩
        exact ⟨st.labels q, ht, (inv.main a ha q hSq.1 hfa hSq.2).mpr hconn⟩
  have claimB : MergedTo mc st.linked (m :: nbs) m :=
    ⟨m, List.mem_cons_self _ _, eqv_refl mc st.linked m⟩
  constructor
  · intro q hq
    dsimp only
    have hq1 : q ∉ done := fun h => hq (List.mem_append_left _ h)
    have hq2 : q ≠ p := fun h => hq (by
      rw [h]; exact List.mem_append_right _ (List.mem_cons_self _ _))
    rw [updF_ne _ _ _ _ hq2]
    exact inv.untouched q hq1
  · intro q hq0'
    dsimp only
    have hq2 : q ≠ p := fun h => hfg (h ▸ hq0')
    rw [updF_ne _ _ _ _ hq2]
    exact inv.bgZero q hq0'
  · intro q hq hfgq
    dsimp only
    rcases (mem_append_singleton q p done).mp hq with hq' | hqe
    · rw [updF_ne _ _ _ _ (hpd q hq')]
      exact inv.fgLab q hq' hfgq
    · rw [hqe, updF_self]
      exact ⟨hm1, hmn⟩
  · exact inv.nextOne
  · exact inv.nextCap
  · exact hshape'
  · intro a ha b hb hfa hfb
    dsimp only
    have hconn2 : ConnectedIn (FgIn img (done ++ [p])) a b ↔
        (ConnectedIn (FgIn img done) a b ∨
          (ReachP (FgIn img done) p a ∧ ReachP (FgIn img done) p b)) := by
      rw [connectedIn_congr hSU, connectedIn_insert hSp a b]
    rw [hconn2]
    have hRpp : ReachP (FgIn img done) p p := Or.inl rfl
    rcases (mem_append_singleton a p done).mp ha with ha' | hae
    · have hba := inv.fgLab a ha' hfa
      rcases (mem_append_singleton b p done).mp hb with hb' | hbe
      · have hbb := inv.fgLab b hb' hfb
        rw [updF_ne _ _ _ _ (hpd a ha'), updF_ne _ _ _ _ (hpd b hb')]
        rw [heqv (st.labels a) (st.labels b) hba.1 hba.2 hbb.1 hbb.2]
        rw [inv.main a ha' b hb' hfa hfb, claimA a ha' hfa, claimA b hb' hfb]
      · rw [hbe]
        rw [updF_ne _ _ _ _ (hpd a ha'), updF_self]
        rw [heqv (st.labels a) m hba.1 hba.2 hm1 hmn]
        have hnc : ¬ ConnectedIn (FgIn img done) a p :=
          fun h => (hpd a ha') (connectedIn_end hSp h)
        constructor
        · rintro (he | ⟨hMa, -⟩)
          · exact Or.inr ⟨(claimA a ha' hfa).mp
              ⟨m, List.mem_cons_self _ _, he⟩, hRpp⟩
          · exact Or.inr ⟨(claimA a ha' hfa).mp hMa, hRpp⟩
        · rintro (h | ⟨hra, -⟩)
          · exact absurd h hnc
          · exact Or.inr ⟨(claimA a ha' hfa).mpr hra, claimB⟩
    · rw [hae]
      rcases (mem_append_singleton b p done).mp hb with hb' | hbe
      · have hbb := inv.fgLab b hb' hfb
        rw [updF_self, updF_ne _ _ _ _ (hpd b hb')]
        rw [heqv m (st.labels b) hm1 hmn hbb.1 hbb.2]
        have hnc : ¬ ConnectedIn (FgIn img done) p b := by
          intro h
          exact (hpd b hb') (connectedIn_end hSp (connectedIn_symm _ h))
        constructor
        · rintro (he | ⟨-, hMb⟩)
          · exact Or.inr ⟨hRpp, (claimA b hb' hfb).mp
              ⟨m, List.mem_cons_self _ _, eqv_symm he⟩⟩
          · exact Or.inr ⟨hRpp, (claimA b hb' hfb).mp hMb⟩
        · rintro (h | ⟨-, hrb⟩)
          · exact absurd h hnc
          · exact Or.inr ⟨claimB, (claimA b hb' hfb).mpr hrb⟩
      · rw [hbe, updF_self]
        constructor
        · intro _
          exact Or.inr ⟨hRpp, hRpp⟩
        · intro _
          exact eqv_refl mc _ m

theorem pass1Go_nil (mc cols : ℕ) (st : Pass1State) :
    pass1Go mc cols [] st = .ok st := rfl

theorem pass1Go_cons (mc cols : ℕ) (p : Pos) (rest : List Pos)
    (st : Pass1State) :
    pass1Go mc cols (p :: rest) st =
      if st.labels p ≠ 0 then
        if (getNeighbors st.labels p cols).isEmpty then
          if mc ≤ st.nextLabel + 1 then .error .labelCapacityExceeded
          else pass1Go mc cols rest
            ⟨updF st.labels p st.nextLabel, st.linked, st.nextLabel + 1⟩
        else
          pass1Go mc cols rest
            ⟨updF st.labels p (minElem (getNeighbors st.labels p cols)),
             (getNeighbors st.labels p cols).foldl
               (fun pa t => disjointUnion mc
                 (minElem (getNeighbors st.labels p cols)) t pa) st.linked,
             st.nextLabel⟩
      else pass1Go mc cols rest st := rfl

theorem pass1Go_inv {img : MatImage} {mc : ℕ} :
    ∀ (l done tail : List Pos) (st : Pass1State),
      rpos img.rows img.cols = (done ++ l) ++ tail →
      Inv1 img mc done st →
      ∀ st', pass1Go mc img.cols l st = .ok st' →
      Inv1 img mc (done ++ l) st' := by
  intro l
  induction l with
  | nil =>
    intro done tail st hsp inv st' hok
    rw [pass1Go_nil] at hok
    cases hok
    simpa using inv
  | cons p l ih =>
    intro done tail st hsp inv st' hok
    have hsp' : rpos img.rows img.cols = done ++ p :: (l ++ tail) := by
      rw [hsp]; simp
    have hassoc : done ++ p :: l = (done ++ [p]) ++ l := by simp
    have hsp2 : rpos img.rows img.cols = ((done ++ [p]) ++ l) ++ tail := by
      rw [hsp]; simp
    rw [pass1Go_cons] at hok
    by_cases hfg : st.labels p ≠ 0
    · rw [if_pos hfg] at hok
      have hfgp : img.pixel p ≠ 0 := by
        have hpnotin : p ∉ done := (rpos_split hsp').2.1
        rw [← inv.untouched p hpnotin]
        exact hfg
      by_cases hemp : (getNeighbors st.labels p img.cols).isEmpty
      · rw [if_pos hemp] at hok
        by_cases hcap2 : mc ≤ st.nextLabel + 1
        · rw [if_pos hcap2] at hok
          exact Except.noConfusion hok
        · rw [if_neg hcap2] at hok
          have hnil : getNeighbors st.labels p img.cols = [] :=
            List.isEmpty_iff.mp hemp
          have inv' := inv1_step_fresh hsp' inv hfgp hnil (by omega)
          have hres := ih (done ++ [p]) tail _ hsp2 inv' st' hok
          rw [hassoc]; exact hres
      · rw [if_neg hemp] at hok
        have hne : getNeighbors st.labels p img.cols ≠ [] := by
          intro h
          rw [h] at hemp
          exact hemp rfl
        have inv' := inv1_step_merge hsp' inv hfgp hne
        have hres := ih (done ++ [p]) tail _ hsp2 inv' st' hok
        rw [hassoc]; exact hres
    · rw [if_neg hfg] at hok
      have hbg : img.pixel p = 0 := by
        have hpnotin : p ∉ done := (rpos_split hsp').2.1
        have hu := inv.untouched p hpnotin
        omega
      have inv' := inv1_step_bg hsp' inv hbg
      have hres := ih (done ++ [p]) tail _ hsp2 inv' st' hok
      rw [hassoc]; exact hres

theorem pass1_inv_full {img : MatImage} {mc : ℕ} {st' : Pass1State}
    (hok : pass1Go mc img.cols (rpos img.rows img.cols)
      ⟨img.pixel, fun _ => 0, 1⟩ = .ok st') :
    Inv1 img mc (rpos img.rows img.cols) st' := by
  have hres := pass1Go_inv (rpos img.rows img.cols) [] []
    ⟨img.pixel, fun _ => 0, 1⟩ (by simp) (inv1_init img mc) st' hok
  simpa using hres

theorem pass1_inv_pre {img : MatImage} {mc : ℕ} {done tail : List Pos}
    {st' : Pass1State}
    (hsp : rpos img.rows img.cols = done ++ tail)
    (hok : pass1Go mc img.cols done ⟨img.pixel, fun _ => 0, 1⟩ = .ok st') :
    Inv1 img mc done st' := by
  have hres := pass1Go_inv done [] tail ⟨img.pixel, fun _ => 0, 1⟩
    (by simpa using hsp) (inv1_init img mc) st' hok
  simpa using hres

/- ------------------------------------------------------------------ -/
/- Pass-2 invariant.                                                   -/
/- ------------------------------------------------------------------ -/

/-- The invariant of the second pass after the positions in `done` have been
relabeled: unvisited cells still hold their provisional labels; visited
foreground cells hold the compact label of their root; `labels_set` is
injective on assigned roots, assigns exactly the values `[1, nextLabel)`,
and every assigned root is the root of some visited foreground pixel;
`temp` collects exactly the final labels of visited foreground pixels. -/
structure Inv2 (img : MatImage) (mc : ℕ) (parent : ℕ → ℕ) (L : Pos → ℕ)
    (done : List Pos) (st : Pass2State) : Prop where
  untouched : ∀ q, q ∉ done → st.labels q = L q
  fgDone : ∀ q, q ∈ done → img.pixel q ≠ 0 →
    st.labels q = st.labelsSet (chase parent mc (L q)) ∧
    st.labelsSet (chase parent mc (L q)) ≠ 0
  bgqZ : ∀ q, img.pixel q = 0 → st.labels q = 0
  kOne : 1 ≤ st.nextLabel
  sigLt : ∀ l, st.labelsSet l < st.nextLabel
  sigSrc : ∀ l, st.labelsSet l ≠ 0 →
    ∃ q, q ∈ done ∧ img.pixel q ≠ 0 ∧ chase parent mc (L q) = l
  sigInj : ∀ l1 l2, st.labelsSet l1 ≠ 0 →
    st.labelsSet l1 = st.labelsSet l2 → l1 = l2
  sigDense : ∀ v, 1 ≤ v → v < st.nextLabel → ∃ l, st.labelsSet l = v
  tempSpec : ∀ t, t ∈ st.temp ↔
    ∃ q, q ∈ done ∧ img.pixel q ≠ 0 ∧ st.labels q = t

theorem inv2_init {img : MatImage} {mc : ℕ} {parent : ℕ → ℕ} {L : Pos → ℕ}
    (HL0 : ∀ q, L q = 0 ↔ img.pixel q = 0) :
    Inv2 img mc parent L [] ⟨L, fun _ => 0, 1, []⟩ := by
  constructor
  · intro q _; rfl
  · intro q hq; cases hq
  · intro q hq; exact (HL0 q).mpr hq
  · exact Nat.le_refl 1
  · intro l; dsimp only; exact Nat.zero_lt_one
  · intro l hl; exact absurd rfl hl
  · intro l1 l2 h1 _; exact absurd rfl h1
  · intro v h1 h2; dsimp only at h2; omega
  · intro t
    constructor
    · intro ht; cases ht
    · rintro ⟨q, hq, -, -⟩; cases hq

theorem pass2Go_nil (mc : ℕ) (parent : ℕ → ℕ) (st : Pass2State) :
    pass2Go mc parent [] st = st := rfl

theorem pass2Go_cons (mc : ℕ) (parent : ℕ → ℕ) (p : Pos) (rest : List Pos)
    (st : Pass2State) :
    pass2Go mc parent (p :: rest) st =
      if st.labels p ≠ 0 then
        pass2Go mc parent rest
          ⟨updF st.labels p
            (disjointFind mc (st.labels p) parent st.labelsSet st.nextLabel).1,
           (disjointFind mc (st.labels p) parent st.labelsSet st.nextLabel).2.1,
           (disjointFind mc (st.labels p) parent st.labelsSet st.nextLabel).2.2,
           st.temp ++
            [(disjointFind mc (st.labels p) parent st.labelsSet st.nextLabel).1]⟩
      else pass2Go mc parent rest st := rfl

theorem disjointFind_zero (mc a : ℕ) (parent labels : ℕ → ℕ) (next : ℕ)
    (h : labels (chase parent mc a) = 0) :
    disjointFind mc a parent labels next
      = (next, updN labels (chase parent mc a) next, next + 1) := by
  unfold disjointFind
  dsimp only
  rw [if_pos h]

theorem disjointFind_nonzero (mc a : ℕ) (parent labels : ℕ → ℕ) (next : ℕ)
    (h : labels (chase parent mc a) ≠ 0) :
    disjointFind mc a parent labels next
      = (labels (chase parent mc a), labels, next) := by
  unfold disjointFind
  dsimp only
  rw [if_neg h]

theorem inv2_step_bg {img : MatImage} {mc : ℕ} {parent : ℕ → ℕ} {L : Pos → ℕ}
    {done : List Pos} {st : Pass2State} {p : Pos}
    (inv : Inv2 img mc parent L done st) (hbg : img.pixel p = 0) :
    Inv2 img mc parent L (done ++ [p]) st := by
  constructor
  · intro q hq
    exact inv.untouched q (fun h => hq (List.mem_append_left _ h))
  · intro q hq hfgq
    rcases (mem_append_singleton q p done).mp hq with hq' | hqe
    · exact inv.fgDone q hq' hfgq
    · exact absurd hbg (hqe ▸ hfgq)
  · exact inv.bgqZ
  · exact inv.kOne
  · exact inv.sigLt
  · intro l hl
    obtain ⟨q, hq, h2, h3⟩ := inv.sigSrc l hl
    exact ⟨q, List.mem_append_left _ hq, h2, h3⟩
  · exact inv.sigInj
  · exact inv.sigDense
  · intro t
    rw [inv.tempSpec t]
    constructor
    · rintro ⟨q, hq, h2, h3⟩
      exact ⟨q, List.mem_append_left _ hq, h2, h3⟩
    · rintro ⟨q, hq, h2, h3⟩
      rcases (mem_append_singleton q p done).mp hq with hq' | hqe
      · exact ⟨q, hq', h2, h3⟩
      · exact absurd hbg (hqe ▸ h2)

theorem inv2_step_fg {img : MatImage} {mc : ℕ} {parent : ℕ → ℕ} {L : Pos → ℕ}
    {done : List Pos} {st : Pass2State} {p : Pos}
    (hpnot : p ∉ done)
    (inv : Inv2 img mc parent L done st) (hfg : img.pixel p ≠ 0) :
    Inv2 img mc parent L (done ++ [p])
      ⟨updF st.labels p
        (disjointFind mc (st.labels p) parent st.labelsSet st.nextLabel).1,
       (disjointFind mc (st.labels p) parent st.labelsSet st.nextLabel).2.1,
       (disjointFind mc (st.labels p) parent st.labelsSet st.nextLabel).2.2,
       st.temp ++
        [(disjointFind mc (st.labels p) parent st.labelsSet st.nextLabel).1]⟩ := by
  have hLp : st.labels p = L p := inv.untouched p hpnot
  have hmemp : p ∈ done ++ [p] :=
    (mem_append_singleton p p done).mpr (Or.inr rfl)
  have hpd : ∀ q : Pos, q ∈ done → q ≠ p := fun q hq he => hpnot (he ▸ hq)
  by_cases hsig : st.labelsSet (chase parent mc (st.labels p)) = 0
  · rw [disjointFind_zero _ _ _ _ _ hsig]
    constructor
    · intro q hq
      dsimp only
      have hq1 : q ∉ done := fun h => hq (List.mem_append_left _ h)
      have hq2 : q ≠ p := fun h => hq (by
        rw [h]; exact List.mem_append_right _ (List.mem_cons_self _ _))
      rw [updF_ne _ _ _ _ hq2]
      exact inv.untouched q hq1
    · intro q hq hfgq
      dsimp only
      rcases (mem_append_singleton q p done).mp hq with hq' | hqe
      · rw [updF_ne _ _ _ _ (hpd q hq')]
        obtain ⟨h1, h2⟩ := inv.fgDone q hq' hfgq
        have hne : chase parent mc (L q) ≠ chase parent mc (st.labels p) :=
          fun he => h2 (he ▸ hsig)
        rw [updN_ne _ _ _ _ hne]
        exact ⟨h1, h2⟩
      · rw [hqe, updF_self, ← hLp, updN_self]
        have hk := inv.kOne
        exact ⟨rfl, by omega⟩
    · intro q hq0
      dsimp only
      have hq2 : q ≠ p := fun h => hfg (h ▸ hq0)
      rw [updF_ne _ _ _ _ hq2]
      exact inv.bgqZ q hq0
    · dsimp only
      have hk := inv.kOne
      omega
    · intro l
      dsimp only
      by_cases hl : l = chase parent mc (st.labels p)
      · rw [hl, updN_self]; omega
      · rw [updN_ne _ _ _ _ hl]
        have := inv.sigLt l
        omega
    · intro l hl
      dsimp only at hl
      by_cases hlr : l = chase parent mc (st.labels p)
      · exact ⟨p, hmemp, hfg, by rw [← hLp, hlr]⟩
      · rw [updN_ne _ _ _ _ hlr] at hl
        obtain ⟨q, hq, h2, h3⟩ := inv.sigSrc l hl
        exact ⟨q, List.mem_append_left _ hq, h2, h3⟩
    · intro l1 l2 h1 h12
      dsimp only at h1 h12
      by_cases hl1 : l1 = chase parent mc (st.labels p) <;>
        by_cases hl2 : l2 = chase parent mc (st.labels p)
      · rw [hl1, hl2]
      · rw [hl1, updN_self] at h12
        rw [updN_ne _ _ _ _ hl2] at h12
        have := inv.sigLt l2
        omega
      · rw [updN_ne _ _ _ _ hl1] at h1 h12
        rw [hl2, updN_self] at h12
        have := inv.sigLt l1
        omega
      · rw [updN_ne _ _ _ _ hl1] at h1 h12
        rw [updN_ne _ _ _ _ hl2] at h12
        exact inv.sigInj l1 l2 h1 h12
    · intro v hv1 hv2
      dsimp only at hv2 ⊢
      by_cases hvk : v = st.nextLabel
      · exact ⟨chase parent mc (st.labels p), by rw [updN_self, hvk]⟩
      · have hvlt : v < st.nextLabel := by omega
        obtain ⟨l, hl⟩ := inv.sigDense v hv1 hvlt
        have hlr : l ≠ chase parent mc (st.labels p) := by
          intro he
          rw [he, hsig] at hl
          omega
        exact ⟨l, by rw [updN_ne _ _ _ _ hlr]; exact hl⟩
    · intro t
      dsimp only
      rw [List.mem_append, inv.tempSpec t]
      simp only [List.mem_cons, List.not_mem_nil, or_false]
      constructor
      · rintro (⟨q, hq, h2, h3⟩ | rfl)
        · exact ⟨q, List.mem_append_left _ hq, h2, by
            rw [updF_ne _ _ _ _ (hpd q hq)]; exact h3⟩
        · exact ⟨p, hmemp, hfg, updF_self _ _ _⟩
      · rintro ⟨q, hq, h2, h3⟩
        rcases (mem_append_singleton q p done).mp hq with hq' | hqe
        · rw [updF_ne _ _ _ _ (hpd q hq')] at h3
          exact Or.inl ⟨q, hq', h2, h3⟩
        · rw [hqe, updF_self] at h3
          exact Or.inr h3.symm
  · rw [disjointFind_nonzero _ _ _ _ _ hsig]
    constructor
    · intro q hq
      dsimp only
      have hq1 : q ∉ done := fun h => hq (List.mem_append_left _ h)
      have hq2 : q ≠ p := fun h => hq (by
        rw [h]; exact List.mem_append_right _ (List.mem_cons_self _ _))
      rw [updF_ne _ _ _ _ hq2]
      exact inv.untouched q hq1
    · intro q hq hfgq
      dsimp only
      rcases (mem_append_singleton q p done).mp hq with hq' | hqe
      · rw [updF_ne _ _ _ _ (hpd q hq')]
        exact inv.fgDone q hq' hfgq
      · rw [hqe, updF_self, ← hLp]
        exact ⟨rfl, hsig⟩
    · intro q hq0
      dsimp only
      have hq2 : q ≠ p := fun h => hfg (h ▸ hq0)
      rw [updF_ne _ _ _ _ hq2]
      exact inv.bgqZ q hq0
    · exact inv.kOne
    · exact inv.sigLt
    · intro l hl
      dsimp only at hl
      obtain ⟨q, hq, h2, h3⟩ := inv.sigSrc l hl
      exact ⟨q, List.mem_append_left _ hq, h2, h3⟩
    · exact inv.sigInj
    · exact inv.sigDense
    · intro t
      dsimp only
      rw [List.mem_append, inv.tempSpec t]
      simp only [List.mem_cons, List.not_mem_nil, or_false]
      constructor
      · rintro (⟨q, hq, h2, h3⟩ | rfl)
        · exact ⟨q, List.mem_append_left _ hq, h2, by
            rw [updF_ne _ _ _ _ (hpd q hq)]; exact h3⟩
        · exact ⟨p, hmemp, hfg, updF_self _ _ _⟩
      · rintro ⟨q, hq, h2, h3⟩
        rcases (mem_append_singleton q p done).mp hq with hq' | hqe
        · rw [updF_ne _ _ _ _ (hpd q hq')] at h3
          exact Or.inl ⟨q, hq', h2, h3⟩
        · rw [hqe, updF_self] at h3
          exact Or.inr h3.symm

theorem rpos_nodup (rows cols : ℕ) : (rpos rows cols).Nodup :=
  (rpos_pairwise rows cols).imp
    (fun hlt he => absurd (he ▸ hlt) (rasterLt_irrefl _))

theorem pass2Go_inv {img : MatImage} {mc : ℕ} {parent : ℕ → ℕ}
    {L : Pos → ℕ} (HL0 : ∀ q, L q = 0 ↔ img.pixel q = 0) :
    ∀ (l done : List Pos) (st : Pass2State),
      (done ++ l).Nodup →
      Inv2 img mc parent L done st →
      Inv2 img mc parent L (done ++ l) (pass2Go mc parent l st) := by
  intro l
  induction l with
  | nil =>
    intro done st _ inv
    rw [pass2Go_nil]
    simpa using inv
  | cons p l ih =>
    intro done st hnd inv
    have hpnot : p ∉ done := by
      rcases List.nodup_append.mp hnd with ⟨-, -, hdisj⟩
      intro hp
      exact hdisj hp (List.mem_cons_self _ _)
    have hnd2 : ((done ++ [p]) ++ l).Nodup := by
      rw [show (done ++ [p]) ++ l = done ++ p :: l by simp]
      exact hnd
    have hassoc : done ++ p :: l = (done ++ [p]) ++ l := by simp
    rw [pass2Go_cons]
    by_cases hfg : st.labels p ≠ 0
    · rw [if_pos hfg]
      have hfgp : img.pixel p ≠ 0 := by
        intro h0
        exact hfg (inv.bgqZ p h0)
      have inv' := inv2_step_fg hpnot inv hfgp
      have hres := ih (done ++ [p]) _ hnd2 inv'
      rw [hassoc]
      exact hres
    · rw [if_neg hfg]
      have hbg : img.pixel p = 0 := by
        have hLp := inv.untouched p hpnot
        have hz : L p = 0 := by omega
        exact (HL0 p).mp hz
      have inv' := inv2_step_bg inv hbg
      have hres := ih (done ++ [p]) _ hnd2 inv'
      rw [hassoc]
      exact hres

theorem pass2_final {img : MatImage} {mc : ℕ} {st1 : Pass1State}
    (inv1 : Inv1 img mc (rpos img.rows img.cols) st1) (st2 : Pass2State)
    (hst2 : st2 = pass2Go mc st1.linked (rpos img.rows img.cols)
      ⟨st1.labels, fun _ => 0, 1, []⟩) :
    (∀ p q, FgP img p → FgP img q →
      (st2.labels p = st2.labels q ↔ Conn img p q)) ∧
    (∀ p, img.pixel p = 0 → st2.labels p = 0) ∧
    (∀ p, FgP img p → 1 ≤ st2.labels p ∧ st2.labels p < st2.nextLabel) ∧
    (∀ v, 1 ≤ v → v < st2.nextLabel → ∃ p, FgP img p ∧ st2.labels p = v) ∧
    (∀ t, t ∈ st2.temp ↔ ∃ p, FgP img p ∧ st2.labels p = t) ∧
    1 ≤ st2.nextLabel := by
  have HL0 : ∀ q, st1.labels q = 0 ↔ img.pixel q = 0 := by
    intro q
    by_cases hq : q ∈ rpos img.rows img.cols
    · constructor
      · intro h0
        by_contra hfg
        have := (inv1.fgLab q hq hfg).1
        omega
      · exact inv1.bgZero q
    · rw [inv1.untouched q hq]
  have inv2base := @pass2Go_inv img mc st1.linked st1.labels HL0
    (rpos img.rows img.cols) [] ⟨st1.labels, fun _ => 0, 1, []⟩
    (by simpa using rpos_nodup img.rows img.cols)
    (@inv2_init img mc st1.linked st1.labels HL0)
  have inv2 : Inv2 img mc st1.linked st1.labels (rpos img.rows img.cols) st2 := by
    rw [hst2]
    simpa using inv2base
  have hFgmem : ∀ p, FgP img p →
      p ∈ rpos img.rows img.cols ∧ img.pixel p ≠ 0 :=
    fun p hp => ⟨(mem_rpos _ _ p).mpr hp.1, hp.2⟩
  have hFgIn : ∀ x, FgIn img (rpos img.rows img.cols) x ↔ FgP img x := by
    intro x
    unfold FgIn FgP
    rw [mem_rpos]
    exact Iff.rfl
  refine ⟨?_, ?_, ?_, ?_, ?_, inv2.kOne⟩
  · intro p q hp hq
    obtain ⟨hpm, hpf⟩ := hFgmem p hp
    obtain ⟨hqm, hqf⟩ := hFgmem q hq
    obtain ⟨hp1, hp2⟩ := inv2.fgDone p hpm hpf
    obtain ⟨hq1, hq2⟩ := inv2.fgDone q hqm hqf
    rw [hp1, hq1]
    constructor
    · intro h
      have hroots := inv2.sigInj _ _ hp2 h
      have heqv : Eqv mc st1.linked (st1.labels p) (st1.labels q) := hroots
      have hcon := (inv1.main p hpm q hqm hpf hqf).mp heqv
      exact (connectedIn_congr hFgIn).mp hcon
    · intro h
      have hc := (connectedIn_congr hFgIn).mpr h
      have he : Eqv mc st1.linked (st1.labels p) (st1.labels q) :=
        (inv1.main p hpm q hqm hpf hqf).mpr hc
      exact congrArg st2.labelsSet he
  · exact inv2.bgqZ
  · intro p hp
    obtain ⟨hpm, hpf⟩ := hFgmem p hp
    obtain ⟨hp1, hp2⟩ := inv2.fgDone p hpm hpf
    rw [hp1]
    have := inv2.sigLt (chase st1.linked mc (st1.labels p))
    omega
  · intro v hv1 hv2
    obtain ⟨l, hl⟩ := inv2.sigDense v hv1 hv2
    have hl0 : st2.labelsSet l ≠ 0 := by omega
    obtain ⟨q, hqm, hqf, hql⟩ := inv2.sigSrc l hl0
    obtain ⟨h1, -⟩ := inv2.fgDone q hqm hqf
    refine ⟨q, ⟨(mem_rpos _ _ q).mp hqm, hqf⟩, ?_⟩
    rw [h1, hql, hl]
  · intro t
    rw [inv2.tempSpec t]
    constructor
    · rintro ⟨q, hqm, hqf, hlab⟩
      exact ⟨q, ⟨(mem_rpos _ _ q).mp hqm, hqf⟩, hlab⟩
    · rintro ⟨q, hq, hlab⟩
      exact ⟨q, (mem_rpos _ _ q).mpr hq.1, hq.2, hlab⟩

/- ------------------------------------------------------------------ -/
/- apply: inversion and end-to-end specification.                      -/
/- ------------------------------------------------------------------ -/

theorem applyCC_ok {sq : ℚ → ℚ} {mc : ℕ} {prev : List ComponentProperty}
    {img : MatImage} {res : ApplyResult}
    (h : applyCC sq mc prev img = .ok res) :
    (img.channels = 1 ∧ img.depth = 8) ∧
    ∃ st1, pass1Go mc img.cols (rpos img.rows img.cols)
        ⟨img.pixel, fun _ => 0, 1⟩ = .ok st1 ∧
      res.labelImage = (pass2Go mc st1.linked (rpos img.rows img.cols)
        ⟨st1.labels, fun _ => 0, 1, []⟩).labels ∧
      res.properties = buildProperties sq img.rows img.cols
        (pass2Go mc st1.linked (rpos img.rows img.cols)
          ⟨st1.labels, fun _ => 0, 1, []⟩).labels prev
        (sortUnique (pass2Go mc st1.linked (rpos img.rows img.cols)
          ⟨st1.labels, fun _ => 0, 1, []⟩).temp) := by
  unfold applyCC at h
  split at h
  · next hty =>
    split at h
    · next e heq => exact Except.noConfusion h
    · next st1 heq =>
      cases h
      exact ⟨hty, st1, heq, rfl, rfl⟩
  · next hty => exact Except.noConfusion h

/-- The setoid of 8-connectivity on the foreground pixels of an image. -/
def connSetoid (img : MatImage) : Setoid {p : Pos // FgP img p} where
  r a b := Conn img a.val b.val
  iseqv := ⟨fun _ => Relation.ReflTransGen.refl,
            fun h => connectedIn_symm _ h,
            fun h1 h2 => Relation.ReflTransGen.trans h1 h2⟩

/-- The number of maximal 8-connected foreground components of an image: the
number of equivalence classes of foreground pixels under `Conn`. This is the
specification-side ground truth the dense final labels are compared to. -/
noncomputable def componentCount (img : MatImage) : ℕ :=
  Nat.card (Quotient (connSetoid img))

theorem componentCount_eq {img : MatImage} {F : Pos → ℕ} {K : ℕ}
    (hclass : ∀ p q, FgP img p → FgP img q → (F p = F q ↔ Conn img p q))
    (hbound : ∀ p, FgP img p → 1 ≤ F p ∧ F p ≤ K)
    (hdense : ∀ v, 1 ≤ v → v ≤ K → ∃ p, FgP img p ∧ F p = v) :
    componentCount img = K := by
  have hresp : ∀ (a b : {p : Pos // FgP img p}), (connSetoid img).r a b →
      (⟨F a.val - 1, by have := hbound a.val a.property; omega⟩ : Fin K)
        = ⟨F b.val - 1, by have := hbound b.val b.property; omega⟩ := by
    intro a b hab
    have hFeq : F a.val = F b.val :=
      (hclass a.val b.val a.property b.property).mpr hab
    exact Fin.ext (by dsimp only; omega)
  have hbij : Function.Bijective (Quotient.lift
      (fun (a : {p : Pos // FgP img p}) =>
        (⟨F a.val - 1, by have := hbound a.val a.property; omega⟩ : Fin K))
      hresp) := by
    constructor
    · intro x y
      refine Quotient.inductionOn₂ x y ?_
      intro a b hfab
      have h1 := hbound a.val a.property
      have h2 := hbound b.val b.property
      have hv : F a.val - 1 = F b.val - 1 := congrArg Fin.val hfab
      have hFeq : F a.val = F b.val := by omega
      exact Quotient.sound ((hclass _ _ a.property b.property).mp hFeq)
    · rintro ⟨j, hj⟩
      obtain ⟨p, hp, hFp⟩ := hdense (j + 1) (by omega) (by omega)
      refine ⟨Quotient.mk _ ⟨p, hp⟩, Fin.ext ?_⟩
      show F p - 1 = j
      omega
  have hcard := Nat.card_eq_of_bijective _ hbij
  rw [componentCount, hcard, Nat.card_eq_fintype_card, Fintype.card_fin]

/-- End-to-end specification of a successful `apply` call: the final labels
classify foreground pixels exactly by 8-connected component, background
stays zero, and the positive labels are dense `{1, ..., K}` with `K` the
number of components. -/
theorem applyCC_spec {sq : ℚ → ℚ} {mc : ℕ} {prev : List ComponentProperty}
    {img : MatImage} {res : ApplyResult}
    (h : applyCC sq mc prev img = .ok res) :
    ∃ K,
      (∀ p q, FgP img p → FgP img q →
        (res.labelImage p = res.labelImage q ↔ Conn img p q)) ∧
      (∀ p, img.pixel p = 0 → res.labelImage p = 0) ∧
      (∀ p, FgP img p → 1 ≤ res.labelImage p ∧ res.labelImage p ≤ K) ∧
      (∀ v, 1 ≤ v → v ≤ K → ∃ p, FgP img p ∧ res.labelImage p = v) ∧
      K = componentCount img := by
  obtain ⟨hty, st1, hok, hlab, hprops⟩ := applyCC_ok h
  have inv1 := pass1_inv_full hok
  obtain ⟨hclass, hbg, hbound, hdense, htemp, hk1⟩ := pass2_final inv1 _ rfl
  rw [← hlab] at hclass hbg hbound hdense
  set k := (pass2Go mc st1.linked (rpos img.rows img.cols)
    ⟨st1.labels, fun _ => 0, 1, []⟩).nextLabel with hk
  refine ⟨k - 1, hclass, hbg, ?_, ?_, ?_⟩
  · intro p hp
    have := hbound p hp
    omega
  · intro v hv1 hv2
    exact hdense v hv1 (by omega)
  · refine (componentCount_eq hclass ?_ ?_).symm
    · intro p hp
      have := hbound p hp
      omega
    · intro v hv1 hv2
      exact hdense v hv1 (by omega)

theorem applyCC_props {sq : ℚ → ℚ} {mc : ℕ} {prev : List ComponentProperty}
    {img : MatImage} {res : ApplyResult}
    (h : applyCC sq mc prev img = .ok res) :
    ∃ labs : List ℕ, labs.Nodup ∧
      (∀ l, l ∈ labs ↔ ∃ p, FgP img p ∧ res.labelImage p = l) ∧
      (∀ p, FgP img p → 1 ≤ res.labelImage p) ∧
      (∀ p, img.pixel p = 0 → res.labelImage p = 0) ∧
      res.properties = buildProperties sq img.rows img.cols res.labelImage
        prev labs := by
  obtain ⟨hty, st1, hok, hlab, hprops⟩ := applyCC_ok h
  have inv1 := pass1_inv_full hok
  obtain ⟨-, hbg, hbound, -, htemp, -⟩ := pass2_final inv1 _ rfl
  refine ⟨sortUnique (pass2Go mc st1.linked (rpos img.rows img.cols)
    ⟨st1.labels, fun _ => 0, 1, []⟩).temp, sortUnique_nodup _, ?_, ?_, ?_, ?_⟩
  · intro l
    rw [mem_sortUnique, hlab]
    exact htemp l
  · intro p hp
    rw [hlab]
    exact (hbound p hp).1
  · intro p hp
    rw [hlab]
    exact hbg p hp
  · rw [hprops, hlab]

theorem map_getD_range {α β : Type} (l : List α) (d : α) (f : α → β) :
    (List.range l.length).map (fun i => f (l.getD i d)) = l.map f := by
  induction l with
  | nil => rfl
  | cons a l ih =>
    rw [List.length_cons, List.range_succ_eq_map, List.map_cons, List.map_map]
    have hcomp : ((fun i => f ((a :: l).getD i d)) ∘ Nat.succ)
        = fun i => f (l.getD i d) := by
      funext i
      rfl
    rw [hcomp, ih]
    rfl

theorem buildProperties_area (sq : ℚ → ℚ) (rows cols : ℕ) (F : Pos → ℕ)
    (prev : List ComponentProperty) (labs : List ℕ) :
    (buildProperties sq rows cols F prev labs).map (fun r => r.area)
      = labs.map (fun l => (rpos rows cols).countP (fun p => F p == l)) := by
  unfold buildProperties
  rw [List.map_map]
  rw [← map_getD_range labs 0
    (fun l => (rpos rows cols).countP (fun p => F p == l))]
  apply List.map_congr_left
  intro i _
  rfl

theorem countP_mem_split {F : Pos → ℕ} (l : ℕ) (ls : List ℕ) (hl : l ∉ ls) :
    ∀ xs : List Pos,
      xs.countP (fun p => decide (F p ∈ l :: ls))
        = xs.countP (fun p => F p == l)
          + xs.countP (fun p => decide (F p ∈ ls)) := by
  intro xs
  induction xs with
  | nil => rfl
  | cons x xs ih =>
    rw [List.countP_cons, List.countP_cons, List.countP_cons, ih]
    by_cases h1 : F x = l
    · simp [h1, hl] <;> omega
    · by_cases h2 : F x ∈ ls
      · simp [h1, h2] <;> omega
      · simp [h1, h2] <;> omega

theorem sum_map_countP {F : Pos → ℕ} :
    ∀ (ls : List ℕ), ls.Nodup → ∀ xs : List Pos,
      (ls.map (fun l => xs.countP (fun p => F p == l))).sum
        = xs.countP (fun p => decide (F p ∈ ls)) := by
  intro ls
  induction ls with
  | nil =>
    intro _ xs
    simp
  | cons l ls ih =>
    intro hnd xs
    obtain ⟨hl, hnd'⟩ := List.nodup_cons.mp hnd
    rw [List.map_cons, List.sum_cons, ih hnd' xs, countP_mem_split l ls hl xs]

theorem pass1NoCap_nil (mc cols : ℕ) (st : Pass1State) :
    pass1NoCap mc cols [] st = st := rfl

theorem pass1NoCap_cons (mc cols : ℕ) (p : Pos) (rest : List Pos)
    (st : Pass1State) :
    pass1NoCap mc cols (p :: rest) st =
      if st.labels p ≠ 0 then
        if (getNeighbors st.labels p cols).isEmpty then
          pass1NoCap mc cols rest
            ⟨updF st.labels p st.nextLabel, st.linked, st.nextLabel + 1⟩
        else
          pass1NoCap mc cols rest
            ⟨updF st.labels p (minElem (getNeighbors st.labels p cols)),
             (getNeighbors st.labels p cols).foldl
               (fun pa t => disjointUnion mc
                 (minElem (getNeighbors st.labels p cols)) t pa) st.linked,
             st.nextLabel⟩
      else pass1NoCap mc cols rest st := rfl

theorem pass1NoCap_agree :
    ∀ (l : List Pos) (mcA mcB cols : ℕ) (st1 st2 : Pass1State),
      st1.labels = st2.labels → st1.nextLabel = st2.nextLabel →
      (pass1NoCap mcA cols l st1).labels = (pass1NoCap mcB cols l st2).labels ∧
      (pass1NoCap mcA cols l st1).nextLabel
        = (pass1NoCap mcB cols l st2).nextLabel := by
  intro l
  induction l with
  | nil =>
    intro mcA mcB cols st1 st2 hlab hnext
    rw [pass1NoCap_nil, pass1NoCap_nil]
    exact ⟨hlab, hnext⟩
  | cons p rest ih =>
    intro mcA mcB cols st1 st2 hlab hnext
    rw [pass1NoCap_cons, pass1NoCap_cons, hlab, hnext]
    by_cases hfg : st2.labels p ≠ 0
    · rw [if_pos hfg, if_pos hfg]
      by_cases hemp : (getNeighbors st2.labels p cols).isEmpty
      · rw [if_pos hemp, if_pos hemp]
        exact ih mcA mcB cols _ _ rfl rfl
      · rw [if_neg hemp, if_neg hemp]
        exact ih mcA mcB cols _ _ rfl rfl
    · rw [if_neg hfg, if_neg hfg]
      exact ih mcA mcB cols st1 st2 hlab hnext

theorem pass1NoCap_next_mono :
    ∀ (l : List Pos) (mc cols : ℕ) (st : Pass1State),
      st.nextLabel ≤ (pass1NoCap mc cols l st).nextLabel := by
  intro l
  induction l with
  | nil =>
    intro mc cols st
    rw [pass1NoCap_nil]
  | cons p rest ih =>
    intro mc cols st
    rw [pass1NoCap_cons]
    by_cases hfg : st.labels p ≠ 0
    · rw [if_pos hfg]
      by_cases hemp : (getNeighbors st.labels p cols).isEmpty
      · rw [if_pos hemp]
        have := ih mc cols
          ⟨updF st.labels p st.nextLabel, st.linked, st.nextLabel + 1⟩
        dsimp only at this
        omega
      · rw [if_neg hemp]
        have hmge := ih mc cols
          ⟨updF st.labels p (minElem (getNeighbors st.labels p cols)),
           (getNeighbors st.labels p cols).foldl
             (fun pa t => disjointUnion mc
               (minElem (getNeighbors st.labels p cols)) t pa) st.linked,
           st.nextLabel⟩
        dsimp only at hmge
        exact hmge
    · rw [if_neg hfg]
      exact ih mc cols st

theorem pass1Go_error_iff :
    ∀ (l : List Pos) (mc cols : ℕ) (st : Pass1State),
      (pass1Go mc cols l st = .error .labelCapacityExceeded ↔
        (mc ≤ (pass1NoCap mc cols l st).nextLabel ∧
         st.nextLabel < (pass1NoCap mc cols l st).nextLabel)) := by
  intro l
  induction l with
  | nil =>
    intro mc cols st
    rw [pass1Go_nil, pass1NoCap_nil]
    constructor
    · intro h
      exact Except.noConfusion h
    · rintro ⟨-, h2⟩
      omega
  | cons p rest ih =>
    intro mc cols st
    rw [pass1Go_cons, pass1NoCap_cons]
    by_cases hfg : st.labels p ≠ 0
    · rw [if_pos hfg, if_pos hfg]
      by_cases hemp : (getNeighbors st.labels p cols).isEmpty
      · rw [if_pos hemp, if_pos hemp]
        have hm := pass1NoCap_next_mono rest mc cols
          ⟨updF st.labels p st.nextLabel, st.linked, st.nextLabel + 1⟩
        dsimp only at hm
        by_cases hcap2 : mc ≤ st.nextLabel + 1
        · rw [if_pos hcap2]
          constructor
          · intro _
            exact ⟨by omega, by omega⟩
          · intro _
            rfl
        · rw [if_neg hcap2]
          rw [ih mc cols
            ⟨updF st.labels p st.nextLabel, st.linked, st.nextLabel + 1⟩]
          dsimp only
          constructor
          · rintro ⟨h1, h2⟩
            exact ⟨h1, by omega⟩
          · rintro ⟨h1, h2⟩
            exact ⟨h1, by omega⟩
      · rw [if_neg hemp, if_neg hemp]
        exact ih mc cols _
    · rw [if_neg hfg, if_neg hfg]
      exact ih mc cols st

theorem pass1Go_error_val :
    ∀ (l : List Pos) (mc cols : ℕ) (st : Pass1State) (e : CCError),
      pass1Go mc cols l st = .error e → e = .labelCapacityExceeded := by
  intro l
  induction l with
  | nil =>
    intro mc cols st e h
    rw [pass1Go_nil] at h
    exact Except.noConfusion h
  | cons p rest ih =>
    intro mc cols st e h
    rw [pass1Go_cons] at h
    by_cases hfg : st.labels p ≠ 0
    · rw [if_pos hfg] at h
      by_cases hemp : (getNeighbors st.labels p cols).isEmpty
      · rw [if_pos hemp] at h
        by_cases hcap2 : mc ≤ st.nextLabel + 1
        · rw [if_pos hcap2] at h
          cases h
          rfl
        · rw [if_neg hcap2] at h
          exact ih mc cols _ e h
      · rw [if_neg hemp] at h
        exact ih mc cols _ e h
    · rw [if_neg hfg] at h
      exact ih mc cols st e h

/- ------------------------------------------------------------------ -/
/- Concrete fixtures for witnesses.                                    -/
/- ------------------------------------------------------------------ -/

instance : Inhabited ApplyResult := ⟨⟨fun _ => 0, []⟩⟩

instance : Inhabited Pass1State := ⟨⟨fun _ => 0, fun _ => 0, 0⟩⟩

/-- A 1×2 single-channel 8-bit image with two adjacent foreground pixels. -/
def wImg12 : MatImage :=
  ⟨1, 8, 1, 2, fun p => if p = (0, 0) then 5 else if p = (0, 1) then 7 else 0⟩

/-- A 1×1 single-channel 8-bit image with one foreground pixel. -/
def wImg11 : MatImage :=
  ⟨1, 8, 1, 1, fun p => if p = (0, 0) then 1 else 0⟩

/-- A three-channel image, violating the single-channel 8-bit precondition. -/
def wImgBad : MatImage := ⟨3, 8, 1, 1, fun _ => 1⟩

/- ------------------------------------------------------------------ -/
/- The claims.                                                         -/
/- ------------------------------------------------------------------ -/

/-- C1: for every single-channel 8-bit input image on which `apply`
succeeds, the foreground pixels grouped by their final label in the returned
label image are exactly the maximal 8-connected components of the foreground
mask: two foreground pixels receive the same final label if and only if they
lie in the same 8-connected component. -/
theorem claim_C1 (sq : ℚ → ℚ) (mc : ℕ) (prev : List ComponentProperty)
    (img : MatImage) (res : ApplyResult)
    (h : applyCC sq mc prev img = .ok res) (p q : Pos)
    (hp : FgP img p) (hq : FgP img q) :
    res.labelImage p = res.labelImage q ↔ Conn img p q := by
  obtain ⟨K, hclass, -, -, -, -⟩ := applyCC_spec h
  exact hclass p q hp hq

theorem claim_C1_witness :
    applyCC (fun x => x) 10 [] wImg12
        = .ok ((applyCC (fun x => x) 10 [] wImg12).toOption.getD default) ∧
    FgP wImg12 (0, 0) ∧ FgP wImg12 (0, 1) ∧
    (((applyCC (fun x => x) 10 [] wImg12).toOption.getD default).labelImage
        (0, 0)
      = ((applyCC (fun x => x) 10 [] wImg12).toOption.getD
          default).labelImage (0, 1)
      ↔ Conn wImg12 (0, 0) (0, 1)) :=
  ⟨rfl, by decide, by decide,
    claim_C1 (fun x => x) 10 [] wImg12 _ rfl (0, 0) (0, 1) (by decide)
      (by decide)⟩

/-- C2: for every input on which `apply` succeeds, the positive values in
the returned label image are exactly `{1, ..., N}` with no gaps, where `N`
is the number of distinct 8-connected foreground regions, and background
pixels remain zero. -/
theorem claim_C2 (sq : ℚ → ℚ) (mc : ℕ) (prev : List ComponentProperty)
    (img : MatImage) (res : ApplyResult)
    (h : applyCC sq mc prev img = .ok res) :
    (∀ p, inBounds img p →
      (img.pixel p ≠ 0 → 1 ≤ res.labelImage p ∧
        res.labelImage p ≤ componentCount img) ∧
      (img.pixel p = 0 → res.labelImage p = 0)) ∧
    (∀ v, 1 ≤ v → v ≤ componentCount img →
      ∃ p, FgP img p ∧ res.labelImage p = v) := by
  obtain ⟨K, -, hbg, hbound, hdense, hK⟩ := applyCC_spec h
  constructor
  · intro p hbp
    constructor
    · intro hfg
      exact hK ▸ hbound p ⟨hbp, hfg⟩
    · intro h0
      exact hbg p h0
  · intro v h1 h2
    rw [← hK] at h2
    exact hdense v h1 h2

theorem claim_C2_witness :
    applyCC (fun x => x) 10 [] wImg12
        = .ok ((applyCC (fun x => x) 10 [] wImg12).toOption.getD default) ∧
    ((∀ p, inBounds wImg12 p →
      (wImg12.pixel p ≠ 0 →
        1 ≤ ((applyCC (fun x => x) 10 [] wImg12).toOption.getD
            default).labelImage p ∧
        ((applyCC (fun x => x) 10 [] wImg12).toOption.getD
            default).labelImage p ≤ componentCount wImg12) ∧
      (wImg12.pixel p = 0 →
        ((applyCC (fun x => x) 10 [] wImg12).toOption.getD
            default).labelImage p = 0)) ∧
    (∀ v, 1 ≤ v → v ≤ componentCount wImg12 →
      ∃ p, FgP wImg12 p ∧
        ((applyCC (fun x => x) 10 [] wImg12).toOption.getD
            default).labelImage p = v)) :=
  ⟨rfl, claim_C2 (fun x => x) 10 [] wImg12 _ rfl⟩

/-- C3 counterexample: unioning the fresh labels 1 and 2 (both are their own
roots) sets `parent[1] = 2` and leaves `parent[2] = 0` — the SMALLER root is
redirected to the larger one, so `parent[1] > 1` points toward a larger
label, refuting both "the larger root's parent is redirected to the smaller
root" and "whenever `parent[i] > 0` the entry points toward a smaller
provisional label". -/
theorem claim_C3_counterexample :
    disjointUnion 10 1 2 (fun _ => 0) 1 = 2 ∧
    disjointUnion 10 1 2 (fun _ => 0) 2 = 0 ∧
    1 < disjointUnion 10 1 2 (fun _ => 0) 1 := by
  refine ⟨?_, ?_, ?_⟩ <;> decide

/-- C3 amended: in the disjoint-set union operation, after chasing both
arguments to their roots, if the roots differ the SMALLER root's parent is
redirected to the LARGER root; consequently whenever `parent[i] > 0` the
entry points toward a larger provisional label. -/
theorem claim_C3_amended {n mc : ℕ} {parent : ℕ → ℕ} (hs : Shape n parent)
    (hcap : n ≤ mc + 1) {a b : ℕ} (ha : a < n) (hb : b < n)
    (hne : chase parent mc a ≠ chase parent mc b) :
    (chase parent mc a < chase parent mc b →
      disjointUnion mc a b parent
        = updN parent (chase parent mc a) (chase parent mc b)) ∧
    (chase parent mc b < chase parent mc a →
      disjointUnion mc a b parent
        = updN parent (chase parent mc b) (chase parent mc a)) ∧
    (∀ i, 0 < disjointUnion mc a b parent i →
      i < disjointUnion mc a b parent i) := by
  refine ⟨?_, ?_, ?_⟩
  · intro hlt
    unfold disjointUnion
    dsimp only
    rw [if_pos hne, if_pos hlt]
  · intro hlt
    unfold disjointUnion
    dsimp only
    rw [if_pos hne, if_neg (by omega)]
  · intro i hi
    have hsh := union_shape hs hcap ha hb
    rcases hsh i with hz | ⟨h1, -⟩
    · omega
    · exact h1

theorem claim_C3_witness :
    Shape 3 (fun _ => 0) ∧ (3 : ℕ) ≤ 10 + 1 ∧ (1 : ℕ) < 3 ∧ (2 : ℕ) < 3 ∧
    chase (fun _ => 0) 10 1 ≠ chase (fun _ => 0) 10 2 ∧
    ((chase (fun _ => 0) 10 1 < chase (fun _ => 0) 10 2 →
      disjointUnion 10 1 2 (fun _ => 0)
        = updN (fun _ => 0) (chase (fun _ => 0) 10 1)
            (chase (fun _ => 0) 10 2)) ∧
    (chase (fun _ => 0) 10 2 < chase (fun _ => 0) 10 1 →
      disjointUnion 10 1 2 (fun _ => 0)
        = updN (fun _ => 0) (chase (fun _ => 0) 10 2)
            (chase (fun _ => 0) 10 1)) ∧
    (∀ i, 0 < disjointUnion 10 1 2 (fun _ => 0) i →
      i < disjointUnion 10 1 2 (fun _ => 0) i)) :=
  ⟨fun _ => Or.inl rfl, by decide, by decide, by decide, by decide,
    @claim_C3_amended 3 10 (fun _ => 0) (fun _ => Or.inl rfl) (by decide)
      1 2 (by decide) (by decide) (by decide)⟩

/-- C5: for every input image that is not single-channel 8-bit, `apply`
rejects immediately with the fatal precondition error; the error result
carries no label image and no property records, so no partial processing is
observable and the stored records are untouched. -/
theorem claim_C5 (sq : ℚ → ℚ) (mc : ℕ) (prev : List ComponentProperty)
    (img : MatImage) (h : ¬ (img.channels = 1 ∧ img.depth = 8)) :
    applyCC sq mc prev img = .error .preconditionViolation := by
  unfold applyCC
  rw [if_neg h]

theorem claim_C5_witness :
    applyCC (fun x => x) 5 [] wImgBad = .error .preconditionViolation :=
  claim_C5 (fun x => x) 5 [] wImgBad (by decide)

/-- C4 counterexample: with `maxComponent = 2`, the 1×1 image with a single
foreground pixel needs only 1 distinct provisional label (1 < 2), yet
`apply` fails with the label-capacity error — the check
`nextLabel >= maxComponent` runs after the increment, so failure happens
before the number of needed labels reaches `maxComponent`, refuting
"exactly when ... reaches or exceeds maxComponent, and not before". -/
theorem claim_C4_counterexample :
    applyCC (fun x => x) 2 [] wImg11 = .error .labelCapacityExceeded ∧
    freshLabelsNeeded wImg11 = 1 ∧ (1 : ℕ) < 2 :=
  ⟨rfl, rfl, by decide⟩

/-- C4 amended: for a single-channel 8-bit image, `apply` fails fatally with
the label-capacity error exactly when the number of distinct fresh
provisional labels needed during pass 1 reaches or exceeds
`maxComponent - 1` (at least one fresh label being needed); the `.error`
result carries no label image and no records, so nothing is produced. In
particular an image requiring 2 labels still fails under `maxComponent = 1`. -/
theorem claim_C4_amended (sq : ℚ → ℚ) (mc : ℕ) (prev : List ComponentProperty)
    (img : MatImage) (hty : img.channels = 1 ∧ img.depth = 8) :
    (applyCC sq mc prev img = .error .labelCapacityExceeded ↔
      (mc ≤ freshLabelsNeeded img + 1 ∧ 1 ≤ freshLabelsNeeded img)) := by
  have hagree := pass1NoCap_agree (rpos img.rows img.cols) mc
    (img.rows * img.cols + 2) img.cols ⟨img.pixel, fun _ => 0, 1⟩
    ⟨img.pixel, fun _ => 0, 1⟩ rfl rfl
  have hmono := pass1NoCap_next_mono (rpos img.rows img.cols) mc img.cols
    ⟨img.pixel, fun _ => 0, 1⟩
  have hiff := pass1Go_error_iff (rpos img.rows img.cols) mc img.cols
    ⟨img.pixel, fun _ => 0, 1⟩
  have hN : (pass1NoCap mc img.cols (rpos img.rows img.cols)
      ⟨img.pixel, fun _ => 0, 1⟩).nextLabel = freshLabelsNeeded img + 1 := by
    unfold freshLabelsNeeded
    have h2 := hagree.2
    dsimp only at hmono h2 ⊢
    omega
  rw [hN] at hiff
  constructor
  · intro herr
    unfold applyCC at herr
    rw [if_pos hty] at herr
    rcases hpass : pass1Go mc img.cols (rpos img.rows img.cols)
        ⟨img.pixel, fun _ => 0, 1⟩ with e | st1
    · rw [hpass] at herr
      dsimp only at herr
      have he : e = CCError.labelCapacityExceeded := by
        injection herr
      rw [he] at hpass
      have hc := hiff.mp hpass
      dsimp only at hc
      omega
    · rw [hpass] at herr
      dsimp only at herr
      exact Except.noConfusion herr
  · intro hcond
    have hp1 : pass1Go mc img.cols (rpos img.rows img.cols)
        ⟨img.pixel, fun _ => 0, 1⟩ = .error .labelCapacityExceeded := by
      apply hiff.mpr
      dsimp only
      omega
    unfold applyCC
    rw [if_pos hty, hp1]

theorem claim_C4_witness :
    (wImg11.channels = 1 ∧ wImg11.depth = 8) ∧
    (applyCC (fun x => x) 2 [] wImg11 = .error .labelCapacityExceeded ↔
      (2 ≤ freshLabelsNeeded wImg11 + 1 ∧ 1 ≤ freshLabelsNeeded wImg11)) :=
  ⟨by decide, claim_C4_amended (fun x => x) 2 [] wImg11 (by decide)⟩

/-- C6: for every input on which `apply` succeeds, the sum of the `area`
fields over all property records equals the number of foreground (nonzero)
pixels of the input image. -/
theorem claim_C6 (sq : ℚ → ℚ) (mc : ℕ) (prev : List ComponentProperty)
    (img : MatImage) (res : ApplyResult)
    (h : applyCC sq mc prev img = .ok res) :
    (res.properties.map (fun r => r.area)).sum
      = (rpos img.rows img.cols).countP (fun p => img.pixel p != 0) := by
  obtain ⟨labs, hnd, hmem, hpos, hbg, hprops⟩ := applyCC_props h
  rw [hprops, buildProperties_area, sum_map_countP labs hnd]
  apply List.countP_congr
  intro p hp
  have hb := (mem_rpos _ _ p).mp hp
  by_cases hfg : img.pixel p = 0
  · have h0 : res.labelImage p = 0 := hbg p hfg
    have hnot : res.labelImage p ∉ labs := by
      rw [h0]
      intro hmem0
      obtain ⟨q, hq, hq0⟩ := (hmem 0).mp hmem0
      have := hpos q hq
      omega
    simp [hnot, hfg]
  · have hin : res.labelImage p ∈ labs := (hmem _).mpr ⟨p, ⟨hb, hfg⟩, rfl⟩
    simp [hin, hfg]

theorem claim_C6_witness :
    applyCC (fun x => x) 10 [] wImg12
        = .ok ((applyCC (fun x => x) 10 [] wImg12).toOption.getD default) ∧
    ((((applyCC (fun x => x) 10 [] wImg12).toOption.getD
        default).properties.map (fun r => r.area)).sum
      = (rpos wImg12.rows wImg12.cols).countP
          (fun p => wImg12.pixel p != 0)) :=
  ⟨rfl, claim_C6 (fun x => x) 10 [] wImg12 _ rfl⟩

/-- C8: `apply` is deterministic and its record output is independent of the
stored property records of any previous call: the records are resized and
then every field of every entry is overwritten, so running `apply` on the
same image with the same `maxComponent` yields identical label images and
identical record sequences regardless of the `properties` member's prior
contents (two successive calls therefore agree). -/
theorem claim_C8 (sq : ℚ → ℚ) (mc : ℕ) (img : MatImage)
    (prev1 prev2 : List ComponentProperty) :
    applyCC sq mc prev1 img = applyCC sq mc prev2 img := rfl

/-- C9: after pass 1 has processed any raster prefix of a single-channel
8-bit image (so in particular during and after the whole pass), following
parent pointers from any label terminates at a root: the chase with fuel
`maxComponent` reaches a fixed point of the parent array (`parent` of the
result is `0`), and pointers only move upward; so every `disjointUnion` and
`disjointFind` chase terminates. -/
theorem claim_C9 (img : MatImage) (mc : ℕ) (done tail : List Pos)
    (st' : Pass1State) (a : ℕ)
    (hsp : rpos img.rows img.cols = done ++ tail)
    (hok : pass1Go mc img.cols done ⟨img.pixel, fun _ => 0, 1⟩ = .ok st') :
    st'.linked (chase st'.linked mc a) = 0 ∧ a ≤ chase st'.linked mc a := by
  have inv := pass1_inv_pre hsp hok
  have hcap := inv1_cap inv
  constructor
  · exact chase_root inv.shape mc a (by omega)
  · exact chase_ge inv.shape mc a

theorem claim_C9_witness :
    (rpos wImg12.rows wImg12.cols = rpos wImg12.rows wImg12.cols ++ []) ∧
    (pass1Go 10 wImg12.cols (rpos wImg12.rows wImg12.cols)
        ⟨wImg12.pixel, fun _ => 0, 1⟩
      = .ok ((pass1Go 10 wImg12.cols (rpos wImg12.rows wImg12.cols)
          ⟨wImg12.pixel, fun _ => 0, 1⟩).toOption.getD default)) ∧
    (((pass1Go 10 wImg12.cols (rpos wImg12.rows wImg12.cols)
        ⟨wImg12.pixel, fun _ => 0, 1⟩).toOption.getD default).linked
      (chase ((pass1Go 10 wImg12.cols (rpos wImg12.rows wImg12.cols)
        ⟨wImg12.pixel, fun _ => 0, 1⟩).toOption.getD default).linked 10 7) = 0 ∧
    7 ≤ chase ((pass1Go 10 wImg12.cols (rpos wImg12.rows wImg12.cols)
        ⟨wImg12.pixel, fun _ => 0, 1⟩).toOption.getD default).linked 10 7) :=
  ⟨by simp, rfl,
    claim_C9 wImg12 10 (rpos wImg12.rows wImg12.cols) [] _ 7 (by simp) rfl⟩

/-- A pass-1 state for the C7 witness: row 0 carries the provisional labels
1 (at `(0,0)`) and 2 (at `(0,2)`), the current pixel `(1,1)` still holds a
raw nonzero value, and `nextLabel = 3`. -/
def wSt7 : Pass1State :=
  ⟨fun q => if q = (0, 0) then 1 else if q = (0, 2) then 2
    else if q = (1, 1) then 9 else 0,
   fun _ => 0, 3⟩

/-- C7: during pass 1, a foreground pixel with at least one already-visited
foreground neighbor (the guarded cells up, up-left, up-right and left) is
assigned the minimum of the deduplicated neighbor labels, and the assigned
label is then unioned in the disjoint set with every one of those neighbor
labels (afterwards it is equivalent to each of them). -/
theorem claim_C7 (mc cols : ℕ) (st : Pass1State) (p : Pos) (rest : List Pos)
    (hfg : st.labels p ≠ 0)
    (hne : getNeighbors st.labels p cols ≠ [])
    (hshape : Shape st.nextLabel st.linked)
    (hcap : st.nextLabel ≤ mc + 1)
    (hbnd : ∀ t ∈ getNeighbors st.labels p cols, 1 ≤ t ∧ t < st.nextLabel) :
    pass1Go mc cols (p :: rest) st = pass1Go mc cols rest
      ⟨updF st.labels p (minElem (getNeighbors st.labels p cols)),
       (getNeighbors st.labels p cols).foldl
         (fun pa t => disjointUnion mc
           (minElem (getNeighbors st.labels p cols)) t pa) st.linked,
       st.nextLabel⟩ ∧
    minElem (getNeighbors st.labels p cols) ∈ getNeighbors st.labels p cols ∧
    (∀ t ∈ getNeighbors st.labels p cols,
      minElem (getNeighbors st.labels p cols) ≤ t) ∧
    (getNeighbors st.labels p cols).Nodup ∧
    (∀ t, t ∈ getNeighbors st.labels p cols ↔
      ∃ q ∈ backPositions p cols, st.labels q ≠ 0 ∧ st.labels q = t) ∧
    (∀ t ∈ getNeighbors st.labels p cols,
      Eqv mc ((getNeighbors st.labels p cols).foldl
        (fun pa t => disjointUnion mc
          (minElem (getNeighbors st.labels p cols)) t pa) st.linked)
        (minElem (getNeighbors st.labels p cols)) t) := by
  have hm_mem : minElem (getNeighbors st.labels p cols)
      ∈ getNeighbors st.labels p cols := minElem_mem _ hne
  have hm := hbnd _ hm_mem
  obtain ⟨hshape', heqv⟩ := foldl_union hcap _ hm.1 hm.2
    (getNeighbors st.labels p cols) st.linked hshape hbnd
  refine ⟨?_, hm_mem, ?_, sortUnique_nodup _, ?_, ?_⟩
  · rw [pass1Go_cons, if_pos hfg,
      if_neg (fun hempty => hne (List.isEmpty_iff.mp hempty))]
  · intro t ht
    exact minElem_le _ t ht
  · intro t
    unfold getNeighbors
    rw [mem_sortUnique, List.mem_filter]
    constructor
    · rintro ⟨hmm, ht0⟩
      rcases List.mem_map.mp hmm with ⟨q, hq, rfl⟩
      refine ⟨q, hq, ?_, rfl⟩
      simpa only [bne_iff_ne, ne_eq] using ht0
    · rintro ⟨q, hq, hq0, rfl⟩
      refine ⟨List.mem_map.mpr ⟨q, hq, rfl⟩, ?_⟩
      simpa only [bne_iff_ne, ne_eq] using hq0
  · intro t ht
    have htb := hbnd t ht
    refine (heqv _ t hm.1 hm.2 htb.1 htb.2).mpr ?_
    refine Or.inr ⟨⟨minElem (getNeighbors st.labels p cols),
      List.mem_cons_self _ _, eqv_refl _ _ _⟩, ⟨t, List.mem_cons_of_mem _ ht,
      eqv_refl _ _ _⟩⟩

theorem claim_C7_witness :
    (wSt7.labels (1, 1) ≠ 0) ∧
    (getNeighbors wSt7.labels (1, 1) 3 ≠ []) ∧
    Shape wSt7.nextLabel wSt7.linked ∧
    wSt7.nextLabel ≤ 5 + 1 ∧
    (∀ t ∈ getNeighbors wSt7.labels (1, 1) 3, 1 ≤ t ∧ t < wSt7.nextLabel) ∧
    (pass1Go 5 3 ((1, 1) :: []) wSt7 = pass1Go 5 3 []
      ⟨updF wSt7.labels (1, 1) (minElem (getNeighbors wSt7.labels (1, 1) 3)),
       (getNeighbors wSt7.labels (1, 1) 3).foldl
         (fun pa t => disjointUnion 5
           (minElem (getNeighbors wSt7.labels (1, 1) 3)) t pa) wSt7.linked,
       wSt7.nextLabel⟩ ∧
    minElem (getNeighbors wSt7.labels (1, 1) 3)
      ∈ getNeighbors wSt7.labels (1, 1) 3 ∧
    (∀ t ∈ getNeighbors wSt7.labels (1, 1) 3,
      minElem (getNeighbors wSt7.labels (1, 1) 3) ≤ t) ∧
    (getNeighbors wSt7.labels (1, 1) 3).Nodup ∧
    (∀ t, t ∈ getNeighbors wSt7.labels (1, 1) 3 ↔
      ∃ q ∈ backPositions (1, 1) 3, wSt7.labels q ≠ 0 ∧ wSt7.labels q = t) ∧
    (∀ t ∈ getNeighbors wSt7.labels (1, 1) 3,
      Eqv 5 ((getNeighbors wSt7.labels (1, 1) 3).foldl
        (fun pa t => disjointUnion 5
          (minElem (getNeighbors wSt7.labels (1, 1) 3)) t pa) wSt7.linked)
        (minElem (getNeighbors wSt7.labels (1, 1) 3)) t)) :=
  ⟨by decide, by decide, fun _ => Or.inl rfl, by decide, by decide,
    claim_C7 5 3 wSt7 (1, 1) [] (by decide) (by decide)
      (fun _ => Or.inl rfl) (by decide) (by decide)⟩

/-- C10: `apply` succeeds on a 1×1 image whose single pixel is foreground (a
single-pixel blob); the blob's normalized second-order central moments
`nu20`, `nu11`, `nu02` are all zero, so the larger eigenvalue `eig_val_1`
computed by `calculateBlobEccentricity` is zero — the record's eccentricity
is computed by the straight-line formula `sqrt(1 - eig_val_2 / eig_val_1)`,
whose division `eig_val_2 / eig_val_1` has the divisor `0` with no guard or
fallback. `sq` is the uninterpreted square root, assumed only to satisfy
`sq 0 = 0`. -/
theorem claim_C10 (sq : ℚ → ℚ) (hsq : sq 0 = 0) :
    ∃ res, applyCC sq 3 [] wImg11 = .ok res ∧
      res.properties.map (fun r => r.labelID) = [1] ∧
      (momentsOf wImg11.rows wImg11.cols
        (fun p => res.labelImage p == 1)).nu20 = 0 ∧
      (momentsOf wImg11.rows wImg11.cols
        (fun p => res.labelImage p == 1)).nu11 = 0 ∧
      (momentsOf wImg11.rows wImg11.cols
        (fun p => res.labelImage p == 1)).nu02 = 0 ∧
      eigVal1 sq (momentsOf wImg11.rows wImg11.cols
        (fun p => res.labelImage p == 1)) = 0 ∧
      (res.properties.getD 0 default).eccentricity
        = calculateBlobEccentricity sq (momentsOf wImg11.rows wImg11.cols
            (fun p => res.labelImage p == 1)) := by
  have hL : ((applyCC sq 3 [] wImg11).toOption.getD default).labelImage
      = ((applyCC (fun _ : ℚ => 0) 3 [] wImg11).toOption.getD
          default).labelImage := rfl
  have hpts : (rpos wImg11.rows wImg11.cols).filter
      (fun p => ((applyCC (fun _ : ℚ => 0) 3 [] wImg11).toOption.getD
        default).labelImage p == 1) = [(0, 0)] := by decide
  have h20 : (momentsOf wImg11.rows wImg11.cols
      (fun p => ((applyCC (fun _ : ℚ => 0) 3 [] wImg11).toOption.getD
        default).labelImage p == 1)).nu20 = 0 := by
    simp only [momentsOf, hpts]; norm_num
  have h11 : (momentsOf wImg11.rows wImg11.cols
      (fun p => ((applyCC (fun _ : ℚ => 0) 3 [] wImg11).toOption.getD
        default).labelImage p == 1)).nu11 = 0 := by
    simp only [momentsOf, hpts]; norm_num
  have h02 : (momentsOf wImg11.rows wImg11.cols
      (fun p => ((applyCC (fun _ : ℚ => 0) 3 [] wImg11).toOption.getD
        default).labelImage p == 1)).nu02 = 0 := by
    simp only [momentsOf, hpts]; norm_num
  refine ⟨(applyCC sq 3 [] wImg11).toOption.getD default, rfl, rfl,
    ?_, ?_, ?_, ?_, rfl⟩
  · simpa only [hL] using h20
  · simpa only [hL] using h11
  · simpa only [hL] using h02
  · simp only [hL]
    unfold eigVal1 leftComp radicand
    rw [h20, h11, h02]
    have hz : (4 : ℚ) * 0 * 0 + (0 - 0) * (0 - 0) = 0 := by norm_num
    rw [hz, hsq]
    norm_num

theorem claim_C10_witness :
    ((fun x : ℚ => x) 0 = 0) ∧
    (∃ res, applyCC (fun x : ℚ => x) 3 [] wImg11 = .ok res ∧
      res.properties.map (fun r => r.labelID) = [1] ∧
      (momentsOf wImg11.rows wImg11.cols
        (fun p => res.labelImage p == 1)).nu20 = 0 ∧
      (momentsOf wImg11.rows wImg11.cols
        (fun p => res.labelImage p == 1)).nu11 = 0 ∧
      (momentsOf wImg11.rows wImg11.cols
        (fun p => res.labelImage p == 1)).nu02 = 0 ∧
      eigVal1 (fun x : ℚ => x) (momentsOf wImg11.rows wImg11.cols
        (fun p => res.labelImage p == 1)) = 0 ∧
      (res.properties.getD 0 default).eccentricity
        = calculateBlobEccentricity (fun x : ℚ => x)
            (momentsOf wImg11.rows wImg11.cols
              (fun p => res.labelImage p == 1))) :=
  ⟨rfl, claim_C10 (fun x : ℚ => x) rfl⟩
